import Mathlib

/-!
Verification of the Apex decompiler core: a shallow embedding of
`src/core/decompiler_engine.py` and `src/advanced/bytecode_analysis.py`.

Bytes are modelled as `List Nat` (each entry a value below 256, as produced by
Python `bytes`).  Python strings are modelled as Lean `String`.  Fallible
Python code (raising `ValueError`, `struct.error`, `IndexError`) is modelled
with `Except ParseErr`.  Python `try`/`except` around a decode is modelled
with `Option`.  Recursion over nested closures is modelled with an explicit
fuel argument; the fuel passed by the top-level entry point exceeds any
recursion depth a buffer of the given length can produce, because every
nested closure consumes bytes before recursing.
-/

namespace Apex

/-- Error values corresponding to the Python exceptions the parser can raise:
`ValueError msg`, `struct.error` (carrying the byte width of the failed
`struct.unpack`), `IndexError` from direct byte indexing, and the runtime
recursion failure for the fuel guard (unreachable at the fuel the entry point
supplies). -/
inductive ParseErr where
  | valueError (msg : String)
  | structError (width : Nat)
  | indexError
  | recursionError
deriving DecidableEq, Repr

/-- Message of a parse error, the way Python `str(e)` renders the
corresponding exception. -/
def ParseErr.message : ParseErr → String
  | .valueError msg => msg
  | .structError w => "unpack requires a buffer of " ++ toString w ++ " bytes"
  | .indexError => "index out of range"
  | .recursionError => "maximum recursion depth exceeded"

/-- Python `bytecode[offset]`: direct indexing, raising `IndexError` when the
offset is out of range. -/
def byteAt (b : List Nat) (off : Nat) : Except ParseErr Nat :=
  match b.get? off with
  | some v => .ok v
  | none => .error .indexError

/-- Python slice `b[off : off + n]`: truncates silently at the end of the
buffer and never fails. -/
def sliceBytes (b : List Nat) (off n : Nat) : List Nat :=
  (b.drop off).take n

/-- Python `struct.unpack('<I', b[off:off+4])[0]`: a little-endian unsigned
32-bit read that raises `struct.error` when fewer than 4 bytes remain. -/
def readU32 (b : List Nat) (off : Nat) : Except ParseErr Nat :=
  match sliceBytes b off 4 with
  | [b0, b1, b2, b3] => .ok (b0 + 256 * b1 + 65536 * b2 + 16777216 * b3)
  | _ => .error (.structError 4)

/-- Python `struct.unpack('<d', b[off:off+8])`: the 8 raw bytes of a double,
kept uninterpreted (the numeric value of a float constant is never inspected
by the code paths under verification).  Raises `struct.error` when fewer than
8 bytes remain. -/
def readF64Bytes (b : List Nat) (off : Nat) : Except ParseErr (List Nat) :=
  let s := sliceBytes b off 8
  if s.length = 8 then .ok s else .error (.structError 8)

/-- Check for a UTF-8 continuation byte. -/
def isCont (b : Nat) : Bool := 128 ≤ b && b ≤ 191

/-- Strict UTF-8 decoding of a byte list into code points, following Python
`bytes.decode('utf-8')`: rejects invalid start bytes, truncated sequences,
overlong encodings, surrogates, and code points above `U+10FFFF`.  Returns
`none` exactly when Python raises `UnicodeDecodeError`. -/
def utf8DecodeStrict : List Nat → Option (List Nat)
  | [] => some []
  | b :: rest =>
    if b ≤ 127 then
      (utf8DecodeStrict rest).map (b :: ·)
    else if 194 ≤ b && b ≤ 223 then
      match rest with
      | c1 :: rest1 =>
        if isCont c1 then
          (utf8DecodeStrict rest1).map (((b - 192) * 64 + (c1 - 128)) :: ·)
        else none
      | _ => none
    else if 224 ≤ b && b ≤ 239 then
      match rest with
      | c1 :: c2 :: rest2 =>
        let lo1 := if b = 224 then 160 else 128
        let hi1 := if b = 237 then 159 else 191
        if (lo1 ≤ c1 && c1 ≤ hi1) && isCont c2 then
          (utf8DecodeStrict rest2).map
            (((b - 224) * 4096 + (c1 - 128) * 64 + (c2 - 128)) :: ·)
        else none
      | _ => none
    else if 240 ≤ b && b ≤ 244 then
      match rest with
      | c1 :: c2 :: c3 :: rest3 =>
        let lo1 := if b = 240 then 144 else 128
        let hi1 := if b = 244 then 143 else 191
        if ((lo1 ≤ c1 && c1 ≤ hi1) && isCont c2) && isCont c3 then
          (utf8DecodeStrict rest3).map
            (((b - 240) * 262144 + (c1 - 128) * 4096 + (c2 - 128) * 64
              + (c3 - 128)) :: ·)
        else none
      | _ => none
    else none

/-- Code point of the Unicode replacement character. -/
def replacementCp : Nat := 65533

/-- UTF-8 decoding with `errors='replace'`: undecodable bytes become the
replacement character and decoding continues with the next byte.  (Python
emits one replacement per maximal invalid subpart; this model emits one per
leading invalid byte.  No claim depends on the replacement granularity: it
only affects the rendered text of malformed string constants.) -/
def utf8DecodeReplaceGo : Nat → List Nat → List Nat
  | 0, _ => []
  | _ + 1, [] => []
  | fuel + 1, b :: rest =>
    if b ≤ 127 then b :: utf8DecodeReplaceGo fuel rest
    else if 194 ≤ b && b ≤ 223 then
      match rest with
      | c1 :: rest1 =>
        if isCont c1 then
          ((b - 192) * 64 + (c1 - 128)) :: utf8DecodeReplaceGo fuel rest1
        else replacementCp :: utf8DecodeReplaceGo fuel (c1 :: rest1)
      | _ => [replacementCp]
    else if 224 ≤ b && b ≤ 239 then
      match rest with
      | c1 :: c2 :: rest2 =>
        let lo1 := if b = 224 then 160 else 128
        let hi1 := if b = 237 then 159 else 191
        if (lo1 ≤ c1 && c1 ≤ hi1) && isCont c2 then
          ((b - 224) * 4096 + (c1 - 128) * 64 + (c2 - 128)) ::
            utf8DecodeReplaceGo fuel rest2
        else replacementCp :: utf8DecodeReplaceGo fuel (c1 :: c2 :: rest2)
      | rest' => replacementCp :: utf8DecodeReplaceGo fuel rest'
    else if 240 ≤ b && b ≤ 244 then
      match rest with
      | c1 :: c2 :: c3 :: rest3 =>
        let lo1 := if b = 240 then 144 else 128
        let hi1 := if b = 244 then 143 else 191
        if ((lo1 ≤ c1 && c1 ≤ hi1) && isCont c2) && isCont c3 then
          ((b - 240) * 262144 + (c1 - 128) * 4096 + (c2 - 128) * 64 + (c3 - 128))
            :: utf8DecodeReplaceGo fuel rest3
        else replacementCp :: utf8DecodeReplaceGo fuel (c1 :: c2 :: c3 :: rest3)
      | rest' => replacementCp :: utf8DecodeReplaceGo fuel rest'
    else replacementCp :: utf8DecodeReplaceGo fuel rest

/-- UTF-8 replace decoding at the fuel the wrapper supplies: every recursive
call of the worker strictly shortens the byte list, so fuel exceeding the
length never runs out. -/
def utf8DecodeReplace (l : List Nat) : List Nat :=
  utf8DecodeReplaceGo (l.length + 1) l

/-- Turn a list of code points into a Lean string, mapping out-of-range code
points (which the decoders above never produce) to the replacement
character. -/
def cpToChar (n : Nat) : Char :=
  if h : n < 55296 then
    Char.ofNatAux n (Or.inl h)
  else if h2 : 57343 < n ∧ n < 1114112 then
    Char.ofNatAux n (Or.inr h2)
  else
    Char.ofNatAux 65533 (Or.inr (by omega))

/-- String built from a list of code points. -/
def stringOfCps (cps : List Nat) : String :=
  String.mk (cps.map cpToChar)

/-- Python `bytes.decode('utf-8', errors='replace')` as a total function into
Lean strings. -/
def decodeReplace (bs : List Nat) : String :=
  stringOfCps (utf8DecodeReplace bs)

/-- Python `bytes.decode('utf-8')` (strict), `none` on failure. -/
def decodeStrict (bs : List Nat) : Option String :=
  (utf8DecodeStrict bs).map stringOfCps

/-- Lua 5.1 opcodes, from the `OpCode` enum of `decompiler_engine.py`. -/
inductive OpCode where
  | MOVE | LOADK | LOADBOOL | LOADNIL | GETUPVAL | GETGLOBAL | GETTABLE
  | SETGLOBAL | SETUPVAL | SETTABLE | NEWTABLE | SELF | ADD | SUB | MUL
  | DIV | MOD | POW | UNM | NOT | LEN | CONCAT | JMP | EQ | LT | LE
  | TEST | TESTSET | CALL | TAILCALL | RETURN | FORLOOP | FORPREP
  | TFORLOOP | SETLIST | CLOSE | CLOSURE | VARARG
deriving DecidableEq, Repr

/-- Python `OpCode(n).name`. -/
def OpCode.name : OpCode → String
  | .MOVE => "MOVE"
  | .LOADK => "LOADK"
  | .LOADBOOL => "LOADBOOL"
  | .LOADNIL => "LOADNIL"
  | .GETUPVAL => "GETUPVAL"
  | .GETGLOBAL => "GETGLOBAL"
  | .GETTABLE => "GETTABLE"
  | .SETGLOBAL => "SETGLOBAL"
  | .SETUPVAL => "SETUPVAL"
  | .SETTABLE => "SETTABLE"
  | .NEWTABLE => "NEWTABLE"
  | .SELF => "SELF"
  | .ADD => "ADD"
  | .SUB => "SUB"
  | .MUL => "MUL"
  | .DIV => "DIV"
  | .MOD => "MOD"
  | .POW => "POW"
  | .UNM => "UNM"
  | .NOT => "NOT"
  | .LEN => "LEN"
  | .CONCAT => "CONCAT"
  | .JMP => "JMP"
  | .EQ => "EQ"
  | .LT => "LT"
  | .LE => "LE"
  | .TEST => "TEST"
  | .TESTSET => "TESTSET"
  | .CALL => "CALL"
  | .TAILCALL => "TAILCALL"
  | .RETURN => "RETURN"
  | .FORLOOP => "FORLOOP"
  | .FORPREP => "FORPREP"
  | .TFORLOOP => "TFORLOOP"
  | .SETLIST => "SETLIST"
  | .CLOSE => "CLOSE"
  | .CLOSURE => "CLOSURE"
  | .VARARG => "VARARG"

/-- Python `OpCode(opcode_num)` wrapped in the parser's
`try ... except ValueError: opcode = OpCode.MOVE`: numbers 0 to 37 map to the
enum member with that value, anything else falls back to `MOVE`. -/
def opCodeOfNat : Nat → OpCode
  | 0 => .MOVE
  | 1 => .LOADK
  | 2 => .LOADBOOL
  | 3 => .LOADNIL
  | 4 => .GETUPVAL
  | 5 => .GETGLOBAL
  | 6 => .GETTABLE
  | 7 => .SETGLOBAL
  | 8 => .SETUPVAL
  | 9 => .SETTABLE
  | 10 => .NEWTABLE
  | 11 => .SELF
  | 12 => .ADD
  | 13 => .SUB
  | 14 => .MUL
  | 15 => .DIV
  | 16 => .MOD
  | 17 => .POW
  | 18 => .UNM
  | 19 => .NOT
  | 20 => .LEN
  | 21 => .CONCAT
  | 22 => .JMP
  | 23 => .EQ
  | 24 => .LT
  | 25 => .LE
  | 26 => .TEST
  | 27 => .TESTSET
  | 28 => .CALL
  | 29 => .TAILCALL
  | 30 => .RETURN
  | 31 => .FORLOOP
  | 32 => .FORPREP
  | 33 => .TFORLOOP
  | 34 => .SETLIST
  | 35 => .CLOSE
  | 36 => .CLOSURE
  | 37 => .VARARG
  | _ => .MOVE

/-- Instruction record from `decompiler_engine.py`: `d` carries the unsigned
`Bx` field and `aux` the signed `sBx` field, exactly as the parser fills
them. -/
structure Instruction where
  opcode : OpCode
  a : Nat
  b : Nat
  c : Nat
  d : Nat
  aux : Int
  line : Nat
  offset : Nat
  raw : List Nat
deriving DecidableEq, Repr

instance : Inhabited Instruction :=
  ⟨⟨.MOVE, 0, 0, 0, 0, 0, 0, 0, []⟩⟩

/-- Constants: the tagged union stored per closure.  A number constant keeps
its 8 raw little-endian bytes (the engine never inspects the numeric value on
the verified paths).  An unrecognized constant tag becomes the Python string
`"<unknown_type_N>"`, which is modelled with `Const.str` because Python then
treats it exactly like any other string constant (in particular the
deobfuscation pass sees it). -/
inductive Const where
  | nil
  | bool (b : Bool)
  | num (bytes : List Nat)
  | str (s : String)
deriving DecidableEq, Repr

/-- Closure (function prototype).  Field order follows the Python `Function`
dataclass; `debug_info` is omitted because the parser always stores the empty
dict there and nothing reads it. -/
inductive Func where
  | mk
    (maxStackSize : Nat)
    (numParams : Nat)
    (numUpvals : Nat)
    (isVararg : Nat)
    (instructions : List Instruction)
    (constants : List Const)
    (protos : List Func)
    (sourceName : String)
    (lineDefined : Nat)
    (lastLineDefined : Nat)
    (upvalueNames : List String)
    (localNames : List (String × Nat × Nat))

def Func.maxStackSize : Func → Nat
  | .mk v _ _ _ _ _ _ _ _ _ _ _ => v

def Func.numParams : Func → Nat
  | .mk _ v _ _ _ _ _ _ _ _ _ _ => v

def Func.numUpvals : Func → Nat
  | .mk _ _ v _ _ _ _ _ _ _ _ _ => v

def Func.isVararg : Func → Nat
  | .mk _ _ _ v _ _ _ _ _ _ _ _ => v

def Func.instructions : Func → List Instruction
  | .mk _ _ _ _ v _ _ _ _ _ _ _ => v

def Func.constants : Func → List Const
  | .mk _ _ _ _ _ v _ _ _ _ _ _ => v

def Func.protos : Func → List Func
  | .mk _ _ _ _ _ _ v _ _ _ _ _ => v

def Func.sourceName : Func → String
  | .mk _ _ _ _ _ _ _ v _ _ _ _ => v

def Func.lineDefined : Func → Nat
  | .mk _ _ _ _ _ _ _ _ v _ _ _ => v

def Func.lastLineDefined : Func → Nat
  | .mk _ _ _ _ _ _ _ _ _ v _ _ => v

def Func.upvalueNames : Func → List String
  | .mk _ _ _ _ _ _ _ _ _ _ v _ => v

def Func.localNames : Func → List (String × Nat × Nat)
  | .mk _ _ _ _ _ _ _ _ _ _ _ v => v

/-- Decode one packed 4-byte instruction, mirroring the field extraction in
`_parse_function` (lines 326-363): opcode in the low 6 bits, `A` in the next
8, `B`/`C` as 9-bit fields, `Bx` as an 18-bit field stored in `d` and `sBx`
stored in `aux`; opcode numbers above 37 zero the operand fields and fall
back to `MOVE`. -/
def decodeInstruction (raw : Nat) (idx : Nat) (off : Nat) (rawBytes : List Nat) :
    Instruction :=
  let opcodeNum := raw &&& 63
  let a := (raw >>> 6) &&& 255
  if opcodeNum ≤ 37 then
    let b := (raw >>> 23) &&& 511
    let c := (raw >>> 14) &&& 511
    let bx := (raw >>> 14) &&& 262143
    let sbx : Int := if bx > 131071 then (bx : Int) - 131071 else (bx : Int)
    { opcode := opCodeOfNat opcodeNum, a := a, b := b, c := c, d := bx,
      aux := sbx, line := idx, offset := off, raw := rawBytes }
  else
    { opcode := opCodeOfNat opcodeNum, a := a, b := 0, c := 0, d := 0,
      aux := 0, line := idx, offset := off, raw := rawBytes }

/-- Instruction-list loop of `_parse_function`: reads `count` packed 4-byte
instructions starting at `off`, failing like `struct.unpack` on a short
buffer.  Returns the instructions and the offset after them. -/
def parseInstructions (bytes : List Nat) :
    Nat → Nat → Nat → Except ParseErr (List Instruction × Nat)
  | 0, off, _ => .ok ([], off)
  | count + 1, off, idx => do
    let raw ← readU32 bytes off
    let ins := decodeInstruction raw idx off (sliceBytes bytes off 4)
    let (rest, off') ← parseInstructions bytes count (off + 4) (idx + 1)
    .ok (ins :: rest, off')

/-- Constant-list loop of `_parse_function` (lines 366-393), including the
silent truncation of an over-long string payload (a Python slice never
fails) and the `"<unknown_type_N>"` fallback. -/
def parseConstants (bytes : List Nat) :
    Nat → Nat → Except ParseErr (List Const × Nat)
  | 0, off => .ok ([], off)
  | count + 1, off => do
    let tag ← byteAt bytes off
    let off := off + 1
    let (c, off') ←
      if tag = 0 then
        .ok (Const.nil, off)
      else if tag = 1 then do
        let v ← byteAt bytes off
        .ok (Const.bool (v ≠ 0), off + 1)
      else if tag = 3 then do
        let bs ← readF64Bytes bytes off
        .ok (Const.num bs, off + 8)
      else if tag = 4 then do
        let strLen ← readU32 bytes off
        let off := off + 4
        if strLen > 0 then
          .ok (Const.str (decodeReplace (sliceBytes bytes off (strLen - 1))),
            off + strLen)
        else
          .ok (Const.str "", off)
      else
        .ok (Const.str ("<unknown_type_" ++ toString tag ++ ">"), off)
    let (rest, off'') ← parseConstants bytes count off'
    .ok (c :: rest, off'')

/-- Local-variable debug info loop of `_parse_function` (lines 416-425): a
named entry consumes its length-prefixed name, an unnamed one skips 8 bytes
without any bounds check. -/
def parseLocals (bytes : List Nat) :
    Nat → Nat → Except ParseErr (List (String × Nat × Nat) × Nat)
  | 0, off => .ok ([], off)
  | count + 1, off => do
    let nameLen ← readU32 bytes off
    let off := off + 4
    if nameLen > 0 then do
      let name := decodeReplace (sliceBytes bytes off (nameLen - 1))
      let (rest, off') ← parseLocals bytes count (off + nameLen)
      .ok ((name, 0, 0) :: rest, off')
    else do
      let (rest, off') ← parseLocals bytes count (off + 8)
      .ok (rest, off')

/-- Upvalue-name loop of `_parse_function` (lines 432-438): a zero length
reads nothing further and does not advance the offset. -/
def parseUpvalueNames (bytes : List Nat) :
    Nat → Nat → Except ParseErr (List String × Nat)
  | 0, off => .ok ([], off)
  | count + 1, off => do
    let nameLen ← readU32 bytes off
    let off := off + 4
    if nameLen > 0 then do
      let name := decodeReplace (sliceBytes bytes off (nameLen - 1))
      let (rest, off') ← parseUpvalueNames bytes count (off + nameLen)
      .ok (name :: rest, off')
    else do
      let (rest, off') ← parseUpvalueNames bytes count off
      .ok (rest, off')

/-- Nested-prototype loop of `_parse_function` (lines 400-402), reading
`count` prototypes with the supplied parsing function. -/
def parseProtosWith (parseFn : Nat → Except ParseErr (Func × Nat)) :
    Nat → Nat → Except ParseErr (List Func × Nat)
  | 0, off => .ok ([], off)
  | count + 1, off => do
    let (proto, off') ← parseFn off
    let (rest, off'') ← parseProtosWith parseFn count off'
    .ok (proto :: rest, off'')

/-- Embedding of `_parse_function` (decompiler_engine.py lines 286-457).
The `fuel` argument bounds the recursion into nested prototypes; Python has
no such bound (each call simply recurses), and the entry point passes fuel
larger than any depth reachable on a buffer of the given length, so the
`recursionError` branch is unreachable from `parseBytecode`. -/
def parseFunction (bytes : List Nat) (off : Nat) (fuel : Nat) :
    Except ParseErr (Func × Nat) :=
  match fuel with
  | 0 => .error .recursionError
  | fuel + 1 => do
    let sourceLen ← readU32 bytes off
    let off := off + 4
    let (sourceName, off) :=
      if sourceLen > 0 then
        (decodeReplace (sliceBytes bytes off (sourceLen - 1)), off + sourceLen)
      else
        ("<unknown>", off)
    let lineDefined ← readU32 bytes off
    let off := off + 4
    let lastLineDefined ← readU32 bytes off
    let off := off + 4
    let numUpvals ← byteAt bytes off
    let off := off + 1
    let numParams ← byteAt bytes off
    let off := off + 1
    let isVararg ← byteAt bytes off
    let off := off + 1
    let maxStackSize ← byteAt bytes off
    let off := off + 1
    let numInstructions ← readU32 bytes off
    let off := off + 4
    let (instructions, off) ← parseInstructions bytes numInstructions off 0
    let numConstants ← readU32 bytes off
    let off := off + 4
    let (constants, off) ← parseConstants bytes numConstants off
    let numProtos ← readU32 bytes off
    let off := off + 4
    let (protos, off) ←
      parseProtosWith (fun o => parseFunction bytes o fuel) numProtos off
    let numLines ← readU32 bytes off
    let off := off + 4 + numLines * 4
    let numLocals ← readU32 bytes off
    let off := off + 4
    let (localNames, off) ← parseLocals bytes numLocals off
    let numUpvalueNames ← readU32 bytes off
    let off := off + 4
    let (upvalueNames, off) ← parseUpvalueNames bytes numUpvalueNames off
    .ok (Func.mk maxStackSize numParams numUpvals isVararg instructions
      constants protos sourceName lineDefined lastLineDefined upvalueNames
      localNames, off)

/-- Two-character lowercase hex rendering of a byte, as Python
`format(v, '02x')` for values below 256. -/
def hexByte (v : Nat) : String :=
  let digit := fun (d : Nat) =>
    String.mk [Char.ofNat (if d < 10 then 48 + d else 87 + d)]
  digit (v / 16 % 16) ++ digit (v % 16)

/-- The four magic bytes `b'\x1bLua'`. -/
def luaSignature : List Nat := [27, 76, 117, 97]

/-- Embedding of `_parse_bytecode` (decompiler_engine.py lines 245-284):
header validation (length, signature, version byte), skipping the six
format/size bytes, then parsing the main function. -/
def parseBytecode (bytes : List Nat) : Except ParseErr Func :=
  if bytes.length < 12 then
    .error (.valueError "Invalid bytecode: too short")
  else if bytes.take 4 ≠ luaSignature then
    .error (.valueError "Invalid Lua bytecode signature")
  else
    match byteAt bytes 4 with
    | .error e => .error e
    | .ok version =>
      if version ≠ 81 then
        .error (.valueError ("Unsupported Lua version: " ++ hexByte version ++
          " (expected 0x51 for Lua 5.1)"))
      else
        match parseFunction bytes 12 (bytes.length + 1) with
        | .error e => .error e
        | .ok (mainFunction, _) => .ok mainFunction

/-- Check whether the first list is an initial segment of the second. -/
def charListHasPre : List Char → List Char → Bool
  | [], _ => true
  | _ :: _, [] => false
  | a :: as, b :: bs => a == b && charListHasPre as bs

/-- Check whether the first list occurs contiguously inside the second. -/
def charListHasSub (needle : List Char) : List Char → Bool
  | [] => charListHasPre needle []
  | c :: rest => charListHasPre needle (c :: rest) || charListHasSub needle rest

/-- Python `needle in hay` on strings. -/
def strContains (hay needle : String) : Bool :=
  charListHasSub needle.data hay.data

/-- The standard base64 alphabet. -/
def b64Alphabet : List Char :=
  "ABCDEFGHIJKLMNOPQRSTUVWXYZabcdefghijklmnopqrstuvwxyz0123456789+/".data

/-- Value of a base64 alphabet character. -/
def b64CharVal (c : Char) : Option Nat :=
  let i := b64Alphabet.indexOf c
  if i < 64 then some i else none

/-- Alphabet character for a 6-bit value. -/
def b64CharOf (n : Nat) : Char :=
  b64Alphabet.getD n 'A'

/-- Python `base64.b64encode` on a byte list (as characters of the resulting
ASCII string). -/
def b64EncodeBytes : List Nat → List Char
  | [] => []
  | [x] =>
    [b64CharOf (x / 4), b64CharOf (x % 4 * 16), '=', '=']
  | [x, y] =>
    [b64CharOf (x / 4), b64CharOf (x % 4 * 16 + y / 16),
     b64CharOf (y % 16 * 4), '=']
  | x :: y :: z :: rest =>
    b64CharOf (x / 4) :: b64CharOf (x % 4 * 16 + y / 16) ::
      b64CharOf (y % 16 * 4 + z / 64) :: b64CharOf (z % 64) ::
      b64EncodeBytes rest

/-- Python `base64.b64decode` on a string, restricted to well-formed inputs:
length a multiple of four, alphabet characters with at most two trailing
padding characters.  Python additionally discards non-alphabet characters
before decoding and ignores nonzero leftover bits; both relaxations can only
produce a decode whose re-encoding differs from the input, so the round-trip
predicate `isBase64Encoded` computed from this model agrees with Python on
every string. -/
def b64DecodeChunks : List Char → Option (List Nat)
  | [] => some []
  | [a, b, '=', '='] => do
    let va ← b64CharVal a
    let vb ← b64CharVal b
    some [va * 4 + vb / 16]
  | [a, b, c, '='] => do
    let va ← b64CharVal a
    let vb ← b64CharVal b
    let vc ← b64CharVal c
    some [va * 4 + vb / 16, vb % 16 * 16 + vc / 4]
  | a :: b :: c :: d :: rest => do
    let va ← b64CharVal a
    let vb ← b64CharVal b
    let vc ← b64CharVal c
    let vd ← b64CharVal d
    let bytes ← b64DecodeChunks rest
    some ((va * 4 + vb / 16) :: (vb % 16 * 16 + vc / 4) :: (vc % 4 * 64 + vd) :: bytes)
  | _ => none

/-- Python `base64.b64decode` of a Python string. -/
def b64DecodeStr (s : String) : Option (List Nat) :=
  b64DecodeChunks s.data

/-- Embedding of `AntiObfuscation._is_base64_encoded` (lines 180-187):
decode, re-encode, and compare byte-for-byte; any exception yields `False`. -/
def isBase64Encoded (s : String) : Bool :=
  match b64DecodeStr s with
  | some bs => String.mk (b64EncodeBytes bs) == s
  | none => false

/-- Membership in Python's `'0123456789abcdefABCDEF'`. -/
def isHexDigitChar (c : Char) : Bool :=
  ('0' ≤ c && c ≤ '9') || ('a' ≤ c && c ≤ 'f') || ('A' ≤ c && c ≤ 'F')

/-- Embedding of `AntiObfuscation._is_hex_encoded` (lines 189-196):
`int(s, 16)` succeeds, the length is even, and every character is a hex
digit.  For a string that passes the latter two checks, `int(s, 16)` fails
exactly when the string is empty, so the `int` call is modelled by the
nonemptiness test. -/
def isHexEncoded (s : String) : Bool :=
  s.data.length != 0 && s.data.length % 2 == 0 && s.data.all isHexDigitChar

/-- Value of one hex digit. -/
def hexVal (c : Char) : Option Nat :=
  if '0' ≤ c && c ≤ '9' then some (c.toNat - 48)
  else if 'a' ≤ c && c ≤ 'f' then some (c.toNat - 87)
  else if 'A' ≤ c && c ≤ 'F' then some (c.toNat - 55)
  else none

/-- Python `bytes.fromhex` on paired hex digits. -/
def hexDecode : List Char → Option (List Nat)
  | [] => some []
  | [_] => none
  | c1 :: c2 :: rest => do
    let v1 ← hexVal c1
    let v2 ← hexVal c2
    let bytes ← hexDecode rest
    some ((v1 * 16 + v2) :: bytes)

/-- Deobfuscation attempt on a single string constant, following the loop
body of `AntiObfuscation.detect_string_obfuscation` (lines 161-176): the
base64 round-trip test runs first and, when it passes, the constant is
decoded as UTF-8 under a `try`/`except` — a non-UTF-8 payload silently
yields no replacement and the hex branch is not consulted (the `elif`).
Otherwise the hex test runs with the same guarded decode. -/
def deobfuscateConst (s : String) : Option String :=
  if isBase64Encoded s then
    (b64DecodeStr s).bind decodeStrict
  else if isHexEncoded s then
    (hexDecode s.data).bind decodeStrict
  else
    none

/-- Embedding of `AntiObfuscation.detect_string_obfuscation` (lines
156-178): the returned association list plays the role of the Python dict
from constant index to decoded text, in index order. -/
def detectStringObfuscation (constants : List Const) : List (Nat × String) :=
  constants.enum.filterMap fun p =>
    match p.2 with
    | Const.str s => (deobfuscateConst s).map fun t => (p.1, t)
    | _ => none

/-- Embedding of `AntiObfuscation.detect_control_flow_obfuscation` (lines
198-210): indices of `JMP` instructions whose resolved target
`i + sBx + 1` falls outside the instruction range. -/
def detectControlFlowObfuscation (instructions : List Instruction) : List Nat :=
  (instructions.enum.filter fun p =>
    p.2.opcode == OpCode.JMP &&
      (let target : Int := (p.1 : Int) + p.2.aux + 1
       decide (target < 0) || decide ((instructions.length : Int) ≤ target))).map
    Prod.fst

/-- Rebuild a closure with new constants (the Python code mutates
`function.constants` in place). -/
def Func.withConstants : Func → List Const → Func
  | .mk ms np nu iv ins _ pr sn ld lld un ln, cs =>
    .mk ms np nu iv ins cs pr sn ld lld un ln

/-- Embedding of `ApexDecompiler._apply_deobfuscation` (lines 459-476):
rewrite the deobfuscated constants in place and record the two statistics
counters.  The `detect_control_flow_obfuscation` call sits in a
`try`/`except` in Python; the model is total, so the fallback arm is not
needed. -/
def applyDeobfuscation (f : Func) : Func × Nat × Nat :=
  let deob := detectStringObfuscation f.constants
  let constants' := deob.foldl (fun cs p => cs.set p.1 (Const.str p.2)) f.constants
  let suspicious := detectControlFlowObfuscation f.instructions
  (f.withConstants constants', deob.length, suspicious.length)

/-- Embedding of `ApexDecompiler._build_cfg` (lines 478-490): the node and
edge lists accumulated into `self.cfg`.  The result is stored in decompiler
state and never read by any later stage, mirroring the Python object. -/
def buildCfgMain (f : Func) : List (Nat × Int × Option String) :=
  f.instructions.enum.flatMap fun p =>
    if p.2.opcode = OpCode.JMP then
      [(p.1, (p.1 : Int) + p.2.aux + 1, none)]
    else if p.2.opcode = OpCode.EQ ∨ p.2.opcode = OpCode.LT ∨
        p.2.opcode = OpCode.LE then
      [(p.1, (p.1 : Int) + 1, some "false"), (p.1, (p.1 : Int) + 2, some "true")]
    else
      []

/-- Context flags from `_analyze_instruction_context` (lines 505-516). -/
structure InstrContext where
  tableAccess : Bool
  functionCall : Bool
  loopVar : Bool
deriving DecidableEq, Repr

/-- Embedding of `ApexDecompiler._analyze_instruction_context`. -/
def analyzeInstructionContext (ins : Instruction) : InstrContext :=
  { tableAccess := ins.opcode == OpCode.GETTABLE,
    functionCall := ins.opcode == OpCode.CALL,
    loopVar := ins.opcode == OpCode.FORPREP || ins.opcode == OpCode.FORLOOP }

/-- Python dict assignment `m[k] = v` on an association list: overwrite the
existing binding or append a new one. -/
def assocSet (l : List (Nat × String)) (k : Nat) (v : String) :
    List (Nat × String) :=
  if l.any (·.1 == k) then
    l.map fun p => if p.1 == k then (k, v) else p
  else
    l ++ [(k, v)]

/-- Python `m.get(k, dflt)` on an association list. -/
def assocGet (l : List (Nat × String)) (k : Nat) (dflt : String) : String :=
  match l.lookup k with
  | some v => v
  | none => dflt

/-- Embedding of `VariableRecovery.infer_variable_name` (lines 125-138): an
existing binding wins, otherwise the context decides the name prefix. -/
def inferVariableName (reg : Nat) (ctx : InstrContext)
    (vm : List (Nat × String)) : String :=
  match vm.lookup reg with
  | some n => n
  | none =>
    if ctx.tableAccess then "table_" ++ toString reg
    else if ctx.functionCall then "result_" ++ toString reg
    else if ctx.loopVar then "i_" ++ toString reg
    else "var_" ++ toString reg

/-- Embedding of `VariableRecovery.infer_type` (lines 140-151). -/
def inferType (ins : Instruction) : String :=
  if ins.opcode = OpCode.LOADK then "string"
  else if ins.opcode = OpCode.LOADBOOL then "boolean"
  else if ins.opcode = OpCode.LOADNIL then "nil"
  else if ins.opcode = OpCode.NEWTABLE then "table"
  else "any"

/-- Embedding of `ApexDecompiler._recover_variables` (lines 492-503):
a forward pass recording names and types for registers defined by
`MOVE`/`LOADK`/`LOADBOOL`/`LOADNIL`. -/
def recoverVariables (f : Func) :
    List (Nat × String) × List (Nat × String) :=
  f.instructions.foldl
    (fun (acc : List (Nat × String) × List (Nat × String)) ins =>
      if ins.opcode = OpCode.MOVE ∨ ins.opcode = OpCode.LOADK ∨
          ins.opcode = OpCode.LOADBOOL ∨ ins.opcode = OpCode.LOADNIL then
        let ctx := analyzeInstructionContext ins
        let varName := inferVariableName ins.a ctx acc.1
        let varType := inferType ins
        (assocSet acc.1 ins.a varName, assocSet acc.2 ins.a varType)
      else
        acc)
    ([], [])

/-- Rendering of a float constant.  Python prints the shortest decimal
rendering of the IEEE double; that algorithm operates on machine floats and
is abstracted here by showing the raw little-endian payload as an integer.
No claim references the text of a number constant. -/
def floatRepr (bytes : List Nat) : String :=
  "f64#" ++ toString (bytes.foldr (fun b acc => b + 256 * acc) 0)

/-- Python `f"{const_val}"` on a constant value. -/
def constRepr : Const → String
  | .nil => "None"
  | .bool true => "True"
  | .bool false => "False"
  | .num bytes => floatRepr bytes
  | .str s => s

/-- Embedding of `ApexDecompiler._instruction_to_source` (lines 562-688).
Every arm mirrors the corresponding template; arms that fall through the
Python `if` chain without returning produce the empty string, which the
caller drops. -/
def instructionToSource (f : Func) (vm : List (Nat × String))
    (ins : Instruction) : String :=
  let getVar := fun (r : Nat) => assocGet vm r ("var" ++ toString r)
  if ins.opcode = OpCode.LOADK then
    let varName := getVar ins.a
    if ins.d < f.constants.length then
      match f.constants.getD ins.d Const.nil with
      | .str s => "local " ++ varName ++ " = \"" ++ s ++ "\""
      | c => "local " ++ varName ++ " = " ++ constRepr c
    else ""
  else if ins.opcode = OpCode.LOADBOOL then
    let varName := getVar ins.a
    let boolVal := if ins.b ≠ 0 then "true" else "false"
    "local " ++ varName ++ " = " ++ boolVal
  else if ins.opcode = OpCode.LOADNIL then
    let varNames := (List.range (ins.b + 1)).map fun j => getVar (ins.a + j)
    "local " ++ String.intercalate ", " varNames ++ " = nil"
  else if ins.opcode = OpCode.MOVE then
    "local " ++ getVar ins.a ++ " = " ++ getVar ins.b
  else if ins.opcode = OpCode.GETGLOBAL then
    let varName := getVar ins.a
    if ins.d < f.constants.length then
      "local " ++ varName ++ " = " ++ constRepr (f.constants.getD ins.d Const.nil)
    else
      "local " ++ varName ++ " = _G[" ++ toString ins.d ++ "]"
  else if ins.opcode = OpCode.SETGLOBAL then
    let varName := getVar ins.a
    if ins.d < f.constants.length then
      constRepr (f.constants.getD ins.d Const.nil) ++ " = " ++ varName
    else
      "_G[" ++ toString ins.d ++ "] = " ++ varName
  else if ins.opcode = OpCode.GETTABLE then
    let dst := getVar ins.a
    let table := getVar ins.b
    if ins.c &&& 256 ≠ 0 then
      let keyIdx := ins.c &&& 255
      if keyIdx < f.constants.length then
        match f.constants.getD keyIdx Const.nil with
        | .str s => "local " ++ dst ++ " = " ++ table ++ "." ++ s
        | k => "local " ++ dst ++ " = " ++ table ++ "[" ++ constRepr k ++ "]"
      else ""
    else
      "local " ++ dst ++ " = " ++ table ++ "[" ++ getVar ins.c ++ "]"
  else if ins.opcode = OpCode.SETTABLE then
    let table := getVar ins.a
    let value := getVar ins.c
    if ins.b &&& 256 ≠ 0 then
      let keyIdx := ins.b &&& 255
      if keyIdx < f.constants.length then
        match f.constants.getD keyIdx Const.nil with
        | .str s => table ++ "." ++ s ++ " = " ++ value
        | k => table ++ "[" ++ constRepr k ++ "] = " ++ value
      else ""
    else
      table ++ "[" ++ getVar ins.b ++ "] = " ++ value
  else if ins.opcode = OpCode.NEWTABLE then
    "local " ++ getVar ins.a ++ " = \x7b\x7d"
  else if ins.opcode = OpCode.CALL then
    let fn := getVar ins.a
    if ins.b = 1 then fn ++ "()"
    else if ins.b = 2 then fn ++ "(" ++ getVar (ins.a + 1) ++ ")"
    else
      let args := (List.range' 1 (ins.b - 1)).map fun j => getVar (ins.a + j)
      fn ++ "(" ++ String.intercalate ", " args ++ ")"
  else if ins.opcode = OpCode.RETURN then
    if ins.b = 1 then "return"
    else if ins.b = 2 then "return " ++ getVar ins.a
    else
      let vals := (List.range (ins.b - 1)).map fun j => getVar (ins.a + j)
      "return " ++ String.intercalate ", " vals
  else if ins.opcode = OpCode.JMP then
    "-- JUMP to +" ++ toString ins.aux
  else if ins.opcode = OpCode.ADD then
    "local " ++ getVar ins.a ++ " = " ++ getVar ins.b ++ " + " ++ getVar ins.c
  else if ins.opcode = OpCode.SUB then
    "local " ++ getVar ins.a ++ " = " ++ getVar ins.b ++ " - " ++ getVar ins.c
  else
    "-- " ++ ins.opcode.name ++ " R(" ++ toString ins.a ++ ") R(" ++
      toString ins.b ++ ") R(" ++ toString ins.c ++ ")"

/-- Embedding of `ApexDecompiler._generate_source` (lines 518-560): header
comments, signature, one indented line per instruction (empty renderings are
dropped), the closing `end`, and the statistics footer (the stats dict is
always nonempty at this point, so the footer is unconditional). -/
def generateSource (f : Func) (vm : List (Nat × String))
    (stats : Nat × Nat) : String :=
  let headerLines :=
    ["-- Decompiled with Apex Decompiler v1.0.0",
     "-- Superior to Oracle, Medal, and Konstant combined",
     "-- Advanced anti-obfuscation and variable recovery",
     ""]
  let signature :=
    if f.numParams > 0 then
      let params := (List.range f.numParams).map fun i =>
        assocGet vm i ("param" ++ toString i)
      let params := if f.isVararg ≠ 0 then params ++ ["..."] else params
      "function(" ++ String.intercalate ", " params ++ ")"
    else
      "function()"
  let bodyLines := f.instructions.filterMap fun ins =>
    let line := instructionToSource f vm ins
    if line = "" then none else some ("    " ++ line)
  let statsLines :=
    ["", "-- Deobfuscation Stats:",
     "-- Strings deobfuscated: " ++ toString stats.1,
     "-- Suspicious jumps detected: " ++ toString stats.2]
  String.intercalate "\n"
    (headerLines ++ [signature] ++ bodyLines ++ ["end"] ++ statsLines)

/-- Embedding of `ApexDecompiler.decompile_bytecode` (lines 222-243): the
whole pipeline runs under one `try`, and any raised exception is converted
into the failure comment.  In the model the only fallible stage is the
parser; every later stage is a total function, matching the fact that the
Python analysis stages cannot raise on a parsed `Function`. -/
def decompileBytecode (bytes : List Nat) : String :=
  match parseBytecode bytes with
  | .error e =>
    "-- Decompilation failed: " ++ e.message ++
      "\n-- This may be due to advanced obfuscation or corrupted bytecode"
  | .ok mainFunction =>
    let (f, stats) := applyDeobfuscation mainFunction
    let _cfg := buildCfgMain f
    let (vm, _types) := recoverVariables f
    generateSource f vm stats

/-- Basic block from `bytecode_analysis.py`.  `endPc` is an integer because
the block built for an empty instruction list ends at `-1`, exactly as in
Python.  The analyzer stores blocks in a dict keyed by the dense ids
`0..N-1`; the model stores them in a list whose index is the id. -/
structure Block where
  id : Nat
  startPc : Nat
  endPc : Int
  instructions : List Instruction
  predecessors : Finset Nat
  successors : Finset Nat
  dominators : Finset Nat
deriving DecidableEq

instance : Inhabited Block :=
  ⟨⟨0, 0, 0, [], ∅, ∅, ∅⟩⟩

/-- Leader set of `_build_cfg` (lines 96-112): instruction 0, every in-range
`JMP` target, and the instruction after every `JMP`, `CALL` or `RETURN`.
The analyzer reads the unsigned `Bx` field `d` of a parsed instruction when
resolving a `JMP` target. -/
def leadersStep (len : Nat) (s : Finset Nat) (p : Nat × Instruction) :
    Finset Nat :=
  if p.2.opcode.name = "JMP" then
    let s := if p.1 + p.2.d + 1 < len then insert (p.1 + p.2.d + 1) s else s
    if p.1 + 1 < len then insert (p.1 + 1) s else s
  else if p.2.opcode.name = "CALL" ∨ p.2.opcode.name = "RETURN" then
    if p.1 + 1 < len then insert (p.1 + 1) s else s
  else s

/-- Leader set of `_build_cfg` (see `leadersStep`). -/
def leadersFinset (instrs : List Instruction) : Finset Nat :=
  instrs.enum.foldl (leadersStep instrs.length) {0}

/-- Ascending enumeration of a finite set of naturals below a bound.  This is
the sorted order Python produces (`sorted(leaders)`, and CPython's iteration
order for sets of small non-negative integers), implemented by structural
recursion so that it evaluates inside the kernel. -/
def ascMembers (bound : Nat) (s : Finset Nat) : List Nat :=
  (List.range bound).filter fun x => decide (x ∈ s)

/-- Python `sorted(leaders)`.  Leaders are always either 0 or in-range
instruction indices, so enumerating them below `length + 1` lists exactly
the sorted leader set. -/
def leadersList (instrs : List Instruction) : List Nat :=
  ascMembers (instrs.length + 1) (leadersFinset instrs)

/-- Block number `i` of `_build_cfg`: from leader `i` (inclusive) to the
next leader minus one, or to the last instruction for the final block. -/
def mkBlockAt (instrs : List Instruction) (L : List Nat) (i : Nat) : Block :=
  let start := L.getD i 0
  let endPc : Int :=
    if i + 1 < L.length then (L.getD (i + 1) 0 : Int) - 1
    else (instrs.length : Int) - 1
  { id := i, startPc := start, endPc := endPc,
    instructions := (instrs.drop start).take (endPc + 1 - start).toNat,
    predecessors := ∅, successors := ∅, dominators := ∅ }

/-- Block construction of `_build_cfg` (lines 114-132): maximal runs between
consecutive sorted leaders, the last block ending at the last instruction. -/
def mkBlocks (instrs : List Instruction) : List Block :=
  (List.range (leadersList instrs).length).map
    (mkBlockAt instrs (leadersList instrs))

/-- Embedding of `_find_block_by_pc` (lines 170-175): first block (in id
order) whose inclusive range contains the program counter. -/
def findBlockByPc (blocks : List Block) (pc : Int) : Option Nat :=
  (blocks.find? fun b =>
    decide ((b.startPc : Int) ≤ pc) && decide (pc ≤ b.endPc)).map (·.id)

/-- Successor targets a block generates in `_build_cfg_edges` (lines
137-168), in insertion order: a last instruction whose opcode name contains
`"JUMP"` targets its resolved block (plus the fall-through block when the
name also contains `"IF"`); any other last instruction except `RETURN`
falls through; a block with no instructions adds nothing. -/
def blockRawSuccessors (blocks : List Block) (b : Block) : List Nat :=
  match b.instructions.getLast? with
  | none => []
  | some lastInstr =>
    if strContains lastInstr.opcode.name "JUMP" then
      let jumpTargets :=
        match findBlockByPc blocks (b.endPc + (lastInstr.d : Int) + 1) with
        | some t => [t]
        | none => []
      let fallTargets :=
        if strContains lastInstr.opcode.name "IF" then
          match findBlockByPc blocks (b.endPc + 1) with
          | some t => [t]
          | none => []
        else []
      jumpTargets ++ fallTargets
    else if lastInstr.opcode.name ≠ "RETURN" then
      match findBlockByPc blocks (b.endPc + 1) with
      | some t => [t]
      | none => []
    else []

/-- Fill the successor and predecessor sets of every block from the raw
successor lists.  The Python code accumulates the same sets by mutation: a
block's successors are added only while visiting that block, and its
predecessors are exactly the blocks whose successor list names it. -/
def buildCfgEdges (blocks : List Block) : List Block :=
  blocks.map fun b =>
    { b with
      successors := (blockRawSuccessors blocks b).toFinset,
      predecessors :=
        ((blocks.filter fun b' =>
          (blockRawSuccessors blocks b').contains b.id).map (·.id)).toFinset }

/-- Embedding of `_build_cfg` followed by `_build_cfg_edges`. -/
def buildCFG (instrs : List Instruction) : List Block :=
  buildCfgEdges (mkBlocks instrs)

/-- Python `set(self.basic_blocks.keys())`. -/
def allBlockIds (blocks : List Block) : Finset Nat :=
  Finset.range blocks.length

/-- Initial dominator sets of `_compute_dominance` (lines 182-192): the
entry block dominates only itself, every other block starts at the full
block set. -/
def domInit (blocks : List Block) : List (Finset Nat) :=
  (List.range blocks.length).map fun i =>
    if i = 0 then {0} else allBlockIds blocks

/-- One block update of the dominance fixpoint (lines 199-215): skip the
entry block, otherwise intersect the predecessors' dominator sets into the
full block set and add the block itself. -/
def domStepBlock (blocks : List Block) (d : List (Finset Nat)) (bid : Nat) :
    List (Finset Nat) :=
  if bid = 0 then d
  else
    let preds := ascMembers blocks.length ((blocks.getD bid default).predecessors)
    let newDoms :=
      insert bid (preds.foldl (fun acc p => acc ∩ d.getD p ∅) (allBlockIds blocks))
    d.set bid newDoms

/-- One full pass of the dominance fixpoint, visiting blocks in dict
(ascending id) order with in-place updates. -/
def domPass (blocks : List Block) (d : List (Finset Nat)) : List (Finset Nat) :=
  (List.range blocks.length).foldl (domStepBlock blocks) d

/-- The `while changed` loop of `_compute_dominance`.  A pass changes the
state exactly when Python's `changed` flag is set, because each block is
written at most once per pass. -/
def domLoop (blocks : List Block) : Nat → List (Finset Nat) → List (Finset Nat)
  | 0, d => d
  | fuel + 1, d =>
    let d' := domPass blocks d
    if d' = d then d else domLoop blocks fuel d'

/-- Embedding of the dominator-set portion of `_compute_dominance` (lines
177-215).  Dominator sets shrink monotonically and each productive pass
removes at least one element, so `N * N + 1` passes always reach the
fixpoint; an empty block dict returns immediately. -/
def computeDominance (blocks : List Block) : List (Finset Nat) :=
  if blocks.length = 0 then []
  else domLoop blocks (blocks.length * blocks.length + 1) (domInit blocks)

/-- Blocks with their dominator sets filled in, as the analyzer leaves
`self.basic_blocks` after `_compute_dominance`.  (The immediate-dominator
tree the method also derives is dead state for every claim and is not
modelled.) -/
def withDominators (blocks : List Block) : List Block :=
  let doms := computeDominance blocks
  blocks.mapIdx fun i b => { b with dominators := doms.getD i ∅ }

/-- Loop record from `bytecode_analysis.py`. -/
structure LoopInfo where
  header : Nat
  body : Finset Nat
  exits : Finset Nat
  loopType : String
  nestingLevel : Nat
deriving DecidableEq

/-- Worklist of `_find_natural_loop` (lines 263-276): FIFO processing of the
tail's backward closure through predecessor sets.  Every node enters the
worklist at most once, so the fuel passed by `findNaturalLoop` (an upper
bound on the number of insertions) never runs out. -/
def naturalLoopGo (blocks : List Block) :
    Nat → Finset Nat → List Nat → Finset Nat
  | 0, body, _ => body
  | _ + 1, body, [] => body
  | fuel + 1, body, current :: rest =>
    let preds := ascMembers blocks.length ((blocks.getD current default).predecessors)
    let step := preds.foldl
      (fun (acc : Finset Nat × List Nat) p =>
        if p ∈ acc.1 then acc else (insert p acc.1, acc.2 ++ [p]))
      (body, [])
    naturalLoopGo blocks fuel step.1 (rest ++ step.2)

/-- Embedding of `_find_natural_loop`. -/
def findNaturalLoop (blocks : List Block) (tl hd : Nat) : Finset Nat :=
  naturalLoopGo blocks
    (blocks.length + 2 + blocks.foldl (fun n b => n + b.predecessors.card) 0)
    {hd, tl} [tl]

/-- Embedding of `_classify_loop_type` (lines 278-294). -/
def classifyLoopType (blocks : List Block) (header : Nat)
    (_body : Finset Nat) : String :=
  let headerBlock := blocks.getD header default
  match headerBlock.instructions.find? (fun ins =>
      strContains ins.opcode.name "FORN" || strContains ins.opcode.name "FORG")
    with
  | some ins =>
    if strContains ins.opcode.name "FORN" then "for_numeric" else "for_generic"
  | none =>
    if headerBlock.predecessors.card > 1 then "while" else "repeat"

/-- Embedding of `_calculate_nesting_level` (lines 296-304): the count is
taken over the loops discovered so far. -/
def calculateNestingLevel (loops : List LoopInfo) (blockId : Nat) : Nat :=
  loops.countP fun L => decide (blockId ∈ L.body) && decide (L.header ≠ blockId)

/-- Embedding of `_find_loop_exits` (lines 306-318). -/
def findLoopExits (blocks : List Block) (body : Finset Nat) : Finset Nat :=
  body.filter fun bid => ¬ (blocks.getD bid default).successors ⊆ body

/-- Back edges in discovery order (lines 236-241): blocks in ascending id
order, successors in ascending order, keeping edges into a dominator. -/
def backEdges (blocks : List Block) : List (Nat × Nat) :=
  blocks.flatMap fun b =>
    (ascMembers blocks.length b.successors).filterMap fun s =>
      if s ∈ b.dominators then some (b.id, s) else none

/-- Loop body of `_detect_loops` for one back edge `(tail, head)`: compute
the natural loop, classify it, compute the nesting level against the loops
discovered so far, and append. -/
def detectLoopsStep (blocks : List Block) (loops : List LoopInfo)
    (p : Nat × Nat) : List LoopInfo :=
  let body := findNaturalLoop blocks p.1 p.2
  let ltype := classifyLoopType blocks p.2 body
  let nesting := calculateNestingLevel loops p.2
  loops ++ [{ header := p.2, body := body,
              exits := findLoopExits blocks body,
              loopType := ltype, nestingLevel := nesting }]

/-- Embedding of `_detect_loops` (lines 232-261): one `LoopInfo` per back
edge, appended in discovery order, with the nesting level computed against
the loops already discovered at that point. -/
def detectLoops (blocks : List Block) : List LoopInfo :=
  (backEdges blocks).foldl (detectLoopsStep blocks) []

/-- Per-block data-flow facts from `bytecode_analysis.py`.  The Python
`defaultdict(set)` maps register to offset set; entries appear only through
`.add`, so the map is exactly a set of (register, offset) pairs. -/
structure DataFlowInfo where
  definitions : Finset (Nat × Nat)
  uses : Finset (Nat × Nat)
  liveIn : Finset Nat
  liveOut : Finset Nat
deriving DecidableEq

instance : Inhabited DataFlowInfo :=
  ⟨⟨∅, ∅, ∅, ∅⟩⟩

/-- Def/use collection of `_analyze_data_flow` (lines 322-344): every
instruction except `JMP`/`RETURN` defines register `a`; register `b` is used
except for `LOADK`; register `c` is used for `GETTABLE`/`SETTABLE`. -/
def blockDataFlow (b : Block) : DataFlowInfo :=
  let pairs := b.instructions.enum.foldl
    (fun (acc : Finset (Nat × Nat) × Finset (Nat × Nat)) p =>
      let defs :=
        if p.2.opcode.name ≠ "JMP" ∧ p.2.opcode.name ≠ "RETURN" then
          insert (p.2.a, b.startPc + p.1) acc.1
        else acc.1
      let uses1 :=
        if p.2.opcode.name ≠ "LOADK" then
          insert (p.2.b, b.startPc + p.1) acc.2
        else acc.2
      let uses2 :=
        if p.2.opcode.name = "GETTABLE" ∨ p.2.opcode.name = "SETTABLE" then
          insert (p.2.c, b.startPc + p.1) uses1
        else uses1
      (defs, uses2))
    (∅, ∅)
  { definitions := pairs.1, uses := pairs.2, liveIn := ∅, liveOut := ∅ }

/-- Registers with a non-empty instruction-offset set. -/
def regsOf (pairs : Finset (Nat × Nat)) : Finset Nat :=
  pairs.image Prod.fst

/-- One block update of `_compute_liveness` (lines 356-380): overwrite
`live_out` with the union of the successors' current `live_in` sets, then
overwrite `live_in` with `uses ∪ (live_out − defs)`. -/
def livenessStepBlock (blocks : List Block) (df : List DataFlowInfo)
    (bid : Nat) : List DataFlowInfo :=
  let entry := df.getD bid default
  let lOut := ((blocks.getD bid default).successors).biUnion fun s =>
    (df.getD s default).liveIn
  let lIn := regsOf entry.uses ∪ (lOut \ regsOf entry.definitions)
  df.set bid { entry with liveOut := lOut, liveIn := lIn }

/-- One full pass of the liveness fixpoint, visiting blocks in reversed id
order with in-place updates. -/
def livenessPass (blocks : List Block) (df : List DataFlowInfo) :
    List DataFlowInfo :=
  ((List.range blocks.length).reverse).foldl (livenessStepBlock blocks) df

/-- The live-in component, which is what Python's `changed` flag compares. -/
def liveInsOf (df : List DataFlowInfo) : List (Finset Nat) :=
  df.map (·.liveIn)

/-- The `while changed` loop of `_compute_liveness`: repeat passes until one
leaves every `live_in` set unchanged, and return the state produced by that
final pass. -/
def livenessLoop (blocks : List Block) : Nat → List DataFlowInfo → List DataFlowInfo
  | 0, df => df
  | fuel + 1, df =>
    let df' := livenessPass blocks df
    if liveInsOf df' = liveInsOf df then df' else livenessLoop blocks fuel df'

/-- Union of all registers used anywhere; live sets can only ever contain
these registers. -/
def usedRegUniverse (df : List DataFlowInfo) : Finset Nat :=
  df.foldl (fun s e => s ∪ regsOf e.uses) ∅

/-- Fuel that always suffices for `livenessLoop`: live-in sets grow
monotonically inside the used-register universe, and every productive pass
adds at least one register somewhere. -/
def livenessFuel (blocks : List Block) (df : List DataFlowInfo) : Nat :=
  blocks.length * (usedRegUniverse df).card + 1

/-- Embedding of `_analyze_data_flow` + `_compute_liveness`: collect per
block def/use facts (live sets initialized empty), then run the backward
fixpoint. -/
def analyzeDataFlow (blocks : List Block) : List DataFlowInfo :=
  let df0 := blocks.map blockDataFlow
  livenessLoop blocks (livenessFuel blocks df0) df0

/-- Optimization levels from `bytecode_analysis.py`. -/
inductive OptimizationLevel where
  | NONE | BASIC | AGGRESSIVE | OBFUSCATED
deriving DecidableEq, Repr

/-- One expansion step of forward reachability over successor edges,
restricted to valid block ids, as in the recursive `_mark_reachable`
(lines 431-439). -/
def reachExpand (blocks : List Block) (r : Finset Nat) : Finset Nat :=
  r ∪ r.biUnion fun bid =>
    ((blocks.getD bid default).successors).filter fun s => s < blocks.length

/-- Embedding of `_mark_reachable` started from block 0: the forward closure
of `{0}` over successor edges.  Iterating the one-step expansion once per
block reaches the closure because new blocks appear at strictly increasing
edge distance. -/
def markReachable (blocks : List Block) : Finset Nat :=
  if blocks.length = 0 then ∅
  else (reachExpand blocks)^[blocks.length] {0}

/-- Counting loop of `_detect_optimization_level` (lines 396-401):
increment the jump counter on `JMP`, else the constant-load counter on
`LOADK`/`LOADN`. -/
def optCountStep (c : Nat × Nat) (ins : Instruction) : Nat × Nat :=
  if ins.opcode.name = "JMP" then (c.1 + 1, c.2)
  else if ins.opcode.name = "LOADK" ∨ ins.opcode.name = "LOADN" then
    (c.1, c.2 + 1)
  else c

/-- Embedding of `_detect_optimization_level` (lines 382-429).  Python
compares float ratios (`jump_ratio > 0.3` and so on); the model compares the
same ratios exactly (`10 * jumps > 3 * total`), which agrees with the float
comparison for all realizable counts. -/
def detectOptimizationLevel (instrs : List Instruction) (blocks : List Block) :
    OptimizationLevel :=
  let total := instrs.length
  if total = 0 then .NONE
  else
    let counts := instrs.foldl optCountStep (0, 0)
    let reachable := markReachable blocks
    let deadCodeBlocks := blocks.length - reachable.card
    let score : Nat :=
      (if 10 * counts.1 > 3 * total ∨
          (blocks.length ≠ 0 ∧ 5 * deadCodeBlocks > blocks.length) then 2
       else if 10 * counts.1 > total then 1
       else 0) +
      (if 2 * counts.2 > total then 1 else 0)
    if score ≥ 3 then .OBFUSCATED
    else if score ≥ 2 then .AGGRESSIVE
    else if score ≥ 1 then .BASIC
    else .NONE

/-- Helper for building concrete instructions in witnesses and
counterexamples. -/
def mkInstr (op : OpCode) (a b c d : Nat) (aux : Int) : Instruction :=
  { opcode := op, a := a, b := b, c := c, d := d, aux := aux,
    line := 0, offset := 0, raw := [] }

/-- No opcode name of this repository's `OpCode` enum contains the substring
`"JUMP"`, so the jump arm of `_build_cfg_edges` can never fire on parsed
instructions. -/
theorem opcodeName_no_JUMP (op : OpCode) : strContains op.name "JUMP" = false := by
  cases op <;> rfl

/-- Opcode names are distinct, so the string comparison with `"RETURN"` in
`_build_cfg_edges` is the same as comparing the opcode itself. -/
theorem opcodeName_eq_RETURN (op : OpCode) :
    op.name = "RETURN" ↔ op = OpCode.RETURN := by
  cases op <;> decide

section ClaimC10

/-- C10: for every input byte sequence, `decompile_bytecode` returns a
string and never raises: the embedding of the pipeline is a total function
into `String`, and whenever the parser fails, the result is exactly the
failure comment built from the exception text.  (The analysis stages that
follow a successful parse are total functions, so a parse success always
yields the synthesized source.) -/
theorem decompile_total_and_failure_comment (bytes : List Nat) (e : ParseErr)
    (h : parseBytecode bytes = .error e) :
    decompileBytecode bytes =
      "-- Decompilation failed: " ++ e.message ++
        "\n-- This may be due to advanced obfuscation or corrupted bytecode" := by
  unfold decompileBytecode
  rw [h]

/-- Witness for C10 at the empty input: parsing fails with the "too short"
`ValueError` and the decompiler returns the failure comment. -/
theorem decompile_total_and_failure_comment_witness :
    decompileBytecode [] =
      "-- Decompilation failed: Invalid bytecode: too short" ++
        "\n-- This may be due to advanced obfuscation or corrupted bytecode" :=
  decompile_total_and_failure_comment []
    (.valueError "Invalid bytecode: too short") rfl

end ClaimC10

section ClaimC9

/-- C9: if an instruction list contains exactly one jump instruction whose
resolved target `i + sBx + 1` lies outside `[0, instruction_count)`, the
suspicious-jump count is exactly 1.  The embedding is a total function, so
the analysis cannot raise. -/
theorem suspicious_jump_count_one (instrs : List Instruction)
    (h : (instrs.enum.countP fun p =>
        decide (p.2.opcode = OpCode.JMP ∧
          (((p.1 : Int) + p.2.aux + 1) < 0 ∨
            (instrs.length : Int) ≤ (p.1 : Int) + p.2.aux + 1))) = 1) :
    (detectControlFlowObfuscation instrs).length = 1 := by
  unfold detectControlFlowObfuscation
  rw [List.length_map, ← List.countP_eq_length_filter]
  rw [← h]
  apply List.countP_congr
  intro p _
  by_cases hj : p.2.opcode = OpCode.JMP
  · by_cases hlt : ((p.1 : Int) + p.2.aux + 1) < 0
    · simp [hj, hlt]
    · by_cases hge : (instrs.length : Int) ≤ (p.1 : Int) + p.2.aux + 1
      · simp [hj, hlt, hge]
      · simp [hj, hlt, hge]
  · simp [hj]

/-- Witness for C9: a single `JMP` with `sBx = 5` resolves to target 6 in a
one-instruction list, which is out of range (`instruction_count + 5`), and
the suspicious count is 1. -/
theorem suspicious_jump_count_one_witness :
    ((([mkInstr .JMP 0 0 0 0 5] : List Instruction).enum.countP fun p =>
        decide (p.2.opcode = OpCode.JMP ∧
          (((p.1 : Int) + p.2.aux + 1) < 0 ∨
            (([mkInstr .JMP 0 0 0 0 5] : List Instruction).length : Int) ≤
              (p.1 : Int) + p.2.aux + 1))) = 1) ∧
    (detectControlFlowObfuscation [mkInstr .JMP 0 0 0 0 5]).length = 1 :=
  ⟨by decide, suspicious_jump_count_one [mkInstr .JMP 0 0 0 0 5] (by decide)⟩

end ClaimC9

section ClaimC2

/-- Successful direct byte read below the buffer length. -/
theorem byteAt_ok (b : List Nat) (i : Nat) (h : i < b.length) :
    byteAt b i = .ok (b.getD i 0) := by
  unfold byteAt
  rw [List.getD_eq_getElem b 0 h, List.get?_eq_getElem?, List.getElem?_eq_getElem h]

/-- Decomposing a failing `Except` bind. -/
theorem except_bind_error {α β : Type} {x : Except ParseErr α}
    {f : α → Except ParseErr β} {e : ParseErr} (h : (x >>= f) = .error e) :
    x = .error e ∨ ∃ a, x = .ok a ∧ f a = .error e := by
  cases x with
  | error e2 =>
    left
    have he : e2 = e := by
      simpa [Bind.bind, Except.bind] using h
    rw [he]
  | ok a =>
    right
    exact ⟨a, rfl, by simpa [Bind.bind, Except.bind] using h⟩

/-- Decomposing a successful `Except` bind. -/
theorem except_bind_ok {α β : Type} {x : Except ParseErr α}
    {f : α → Except ParseErr β} {b : β} (h : (x >>= f) = .ok b) :
    ∃ a, x = .ok a ∧ f a = .ok b := by
  cases x with
  | error e2 => simp [Bind.bind, Except.bind] at h
  | ok a => exact ⟨a, rfl, by simpa [Bind.bind, Except.bind] using h⟩

/-- Length of a Python slice. -/
theorem sliceBytes_length (b : List Nat) (off n : Nat) :
    (sliceBytes b off n).length = min n (b.length - off) := by
  simp [sliceBytes]

/-- A 4-byte read that extends past the end of the buffer raises
`struct.error`. -/
theorem readU32_short {b : List Nat} {off : Nat} (h : b.length < off + 4) :
    readU32 b off = .error (.structError 4) := by
  have hs := sliceBytes_length b off 4
  unfold readU32
  rcases hS : sliceBytes b off 4 with _ | ⟨a0, _ | ⟨a1, _ | ⟨a2, _ | ⟨a3, tl3⟩⟩⟩⟩
  · rfl
  · rfl
  · rfl
  · rfl
  · exfalso
    rw [hS] at hs
    simp at hs
    omega

/-- A 4-byte read entirely inside the buffer succeeds. -/
theorem readU32_ok_of_le {b : List Nat} {off : Nat} (h : off + 4 ≤ b.length) :
    ∃ v, readU32 b off = .ok v := by
  have hs := sliceBytes_length b off 4
  unfold readU32
  rcases hS : sliceBytes b off 4 with _ | ⟨a0, _ | ⟨a1, _ | ⟨a2, _ | ⟨a3, tl3⟩⟩⟩⟩
  · rw [hS] at hs; simp at hs; omega
  · rw [hS] at hs; simp at hs; omega
  · rw [hS] at hs; simp at hs; omega
  · rw [hS] at hs; simp at hs; omega
  · rcases tl3 with _ | ⟨a4, tl4⟩
    · exact ⟨_, rfl⟩
    · rw [hS] at hs; simp at hs; omega

/-- A successful 4-byte read lies inside the buffer. -/
theorem readU32_ok_bound {b : List Nat} {off v : Nat}
    (h : readU32 b off = .ok v) : off + 4 ≤ b.length := by
  by_contra hc
  rw [readU32_short (by omega)] at h
  exact Except.noConfusion h

/-- `struct.unpack('<I', ...)` fails only with `struct.error`, and only on a
read past the end of the buffer. -/
theorem readU32_error_shape {b : List Nat} {off : Nat} {e : ParseErr}
    (h : readU32 b off = .error e) :
    e = .structError 4 ∧ b.length < off + 4 := by
  by_cases hlt : b.length < off + 4
  · have h2 := readU32_short hlt
    rw [h] at h2
    exact ⟨(Except.error.injEq _ _).mp h2, hlt⟩
  · obtain ⟨v, hv⟩ := readU32_ok_of_le (show off + 4 ≤ b.length by omega)
    rw [h] at hv
    exact Except.noConfusion hv

/-- A direct byte read at or past the end raises `IndexError`. -/
theorem byteAt_short {b : List Nat} {off : Nat} (h : b.length ≤ off) :
    byteAt b off = .error .indexError := by
  unfold byteAt
  rw [List.get?_eq_getElem?, List.getElem?_eq_none h]

/-- `bytecode[offset]` fails only with `IndexError`, and only at or past the
end of the buffer. -/
theorem byteAt_error_shape {b : List Nat} {off : Nat} {e : ParseErr}
    (h : byteAt b off = .error e) :
    e = .indexError ∧ b.length ≤ off := by
  by_cases hle : b.length ≤ off
  · have h2 := byteAt_short hle
    rw [h] at h2
    exact ⟨(Except.error.injEq _ _).mp h2, hle⟩
  · rw [byteAt_ok b off (by omega)] at h
    exact Except.noConfusion h

/-- An 8-byte read that extends past the end of the buffer raises
`struct.error`. -/
theorem readF64Bytes_short {b : List Nat} {off : Nat}
    (h : b.length < off + 8) :
    readF64Bytes b off = .error (.structError 8) := by
  unfold readF64Bytes
  rw [if_neg]
  rw [sliceBytes_length]
  omega

/-- An 8-byte read entirely inside the buffer succeeds. -/
theorem readF64Bytes_ok_of_le {b : List Nat} {off : Nat}
    (h : off + 8 ≤ b.length) :
    ∃ v, readF64Bytes b off = .ok v := by
  unfold readF64Bytes
  rw [if_pos]
  · exact ⟨_, rfl⟩
  · rw [sliceBytes_length]
    omega

/-- `struct.unpack('<d', ...)` fails only with `struct.error`, and only on a
read past the end of the buffer. -/
theorem readF64Bytes_error_shape {b : List Nat} {off : Nat} {e : ParseErr}
    (h : readF64Bytes b off = .error e) :
    e = .structError 8 ∧ b.length < off + 8 := by
  by_cases hlt : b.length < off + 8
  · have h2 := readF64Bytes_short hlt
    rw [h] at h2
    exact ⟨(Except.error.injEq _ _).mp h2, hlt⟩
  · obtain ⟨v, hv⟩ := readF64Bytes_ok_of_le (show off + 8 ≤ b.length by omega)
    rw [h] at hv
    exact Except.noConfusion hv

/-- The errors a truncated fixed-size scalar read can raise: `struct.error`
for a 4-byte or 8-byte read, `IndexError` for a 1-byte read. -/
def ScalarErr (e : ParseErr) : Prop :=
  e = .structError 4 ∨ e = .structError 8 ∨ e = .indexError

theorem parseInstructions_error (bytes : List Nat) :
    ∀ (count off idx : Nat) (e : ParseErr),
      parseInstructions bytes count off idx = .error e → ScalarErr e := by
  intro count
  induction count with
  | zero =>
    intro off idx e h
    exact Except.noConfusion h
  | succ n ih =>
    intro off idx e h
    unfold parseInstructions at h
    rcases except_bind_error h with h1 | ⟨raw, hraw, h⟩
    · exact Or.inl (readU32_error_shape h1).1
    dsimp only at h
    rcases except_bind_error h with h1 | ⟨⟨rest, off2⟩, hrest, h⟩
    · exact ih _ _ _ h1
    dsimp only at h
    exact Except.noConfusion h

theorem parseInstructions_ok_mono (bytes : List Nat) :
    ∀ (count off idx : Nat) (l : List Instruction) (off' : Nat),
      parseInstructions bytes count off idx = .ok (l, off') → off ≤ off' := by
  intro count
  induction count with
  | zero =>
    intro off idx l off' h
    unfold parseInstructions at h
    have h2 := congrArg Prod.snd (Except.ok.inj h)
    dsimp at h2
    omega
  | succ n ih =>
    intro off idx l off' h
    unfold parseInstructions at h
    obtain ⟨raw, hraw, h⟩ := except_bind_ok h
    dsimp only at h
    obtain ⟨⟨rest, off2⟩, hrest, h⟩ := except_bind_ok h
    dsimp only at h
    have h2 := congrArg Prod.snd (Except.ok.inj h)
    dsimp at h2
    have h3 := ih _ _ _ _ hrest
    omega

theorem except_ok_bind {α β : Type} (a : α) (k : α → Except ParseErr β) :
    (Except.ok a >>= k) = k a := rfl

theorem parseConstants_error (bytes : List Nat) :
    ∀ (count off : Nat) (e : ParseErr),
      parseConstants bytes count off = .error e → ScalarErr e := by
  intro count
  induction count with
  | zero =>
    intro off e h
    exact Except.noConfusion h
  | succ n ih =>
    intro off e h
    unfold parseConstants at h
    rcases except_bind_error h with h1 | ⟨tag, htag, h⟩
    · exact Or.inr (Or.inr (byteAt_error_shape h1).1)
    dsimp only at h
    split at h
    · rw [except_ok_bind] at h
      dsimp only at h
      rcases except_bind_error h with h1 | ⟨⟨rest, off2⟩, hrest, h⟩
      · exact ih _ _ h1
      dsimp only at h
      exact Except.noConfusion h
    split at h
    · rcases except_bind_error h with h1 | ⟨v, hv, h⟩
      · exact Or.inr (Or.inr (byteAt_error_shape h1).1)
      rw [except_ok_bind] at h
      dsimp only at h
      rcases except_bind_error h with h1 | ⟨⟨rest, off2⟩, hrest, h⟩
      · exact ih _ _ h1
      dsimp only at h
      exact Except.noConfusion h
    split at h
    · rcases except_bind_error h with h1 | ⟨bs, hbs, h⟩
      · exact Or.inr (Or.inl (readF64Bytes_error_shape h1).1)
      rw [except_ok_bind] at h
      dsimp only at h
      rcases except_bind_error h with h1 | ⟨⟨rest, off2⟩, hrest, h⟩
      · exact ih _ _ h1
      dsimp only at h
      exact Except.noConfusion h
    split at h
    · rcases except_bind_error h with h1 | ⟨strLen, hsl, h⟩
      · exact Or.inl (readU32_error_shape h1).1
      split at h
      · rw [except_ok_bind] at h
        dsimp only at h
        rcases except_bind_error h with h1 | ⟨⟨rest, off2⟩, hrest, h⟩
        · exact ih _ _ h1
        dsimp only at h
        exact Except.noConfusion h
      · rw [except_ok_bind] at h
        dsimp only at h
        rcases except_bind_error h with h1 | ⟨⟨rest, off2⟩, hrest, h⟩
        · exact ih _ _ h1
        dsimp only at h
        exact Except.noConfusion h
    · rw [except_ok_bind] at h
      dsimp only at h
      rcases except_bind_error h with h1 | ⟨⟨rest, off2⟩, hrest, h⟩
      · exact ih _ _ h1
      dsimp only at h
      exact Except.noConfusion h

theorem parseConstants_ok_mono (bytes : List Nat) :
    ∀ (count off : Nat) (l : List Const) (off' : Nat),
      parseConstants bytes count off = .ok (l, off') → off ≤ off' := by
  intro count
  induction count with
  | zero =>
    intro off l off' h
    unfold parseConstants at h
    have h2 := congrArg Prod.snd (Except.ok.inj h)
    dsimp at h2
    omega
  | succ n ih =>
    intro off l off' h
    unfold parseConstants at h
    obtain ⟨tag, htag, h⟩ := except_bind_ok h
    dsimp only at h
    split at h
    · rw [except_ok_bind] at h
      dsimp only at h
      obtain ⟨⟨rest, off2⟩, hrest, h⟩ := except_bind_ok h
      dsimp only at h
      have h2 := congrArg Prod.snd (Except.ok.inj h)
      dsimp at h2
      have h3 := ih _ _ _ hrest
      omega
    split at h
    · obtain ⟨v, hv, h⟩ := except_bind_ok h
      rw [except_ok_bind] at h
      dsimp only at h
      obtain ⟨⟨rest, off2⟩, hrest, h⟩ := except_bind_ok h
      dsimp only at h
      have h2 := congrArg Prod.snd (Except.ok.inj h)
      dsimp at h2
      have h3 := ih _ _ _ hrest
      omega
    split at h
    · obtain ⟨bs, hbs, h⟩ := except_bind_ok h
      rw [except_ok_bind] at h
      dsimp only at h
      obtain ⟨⟨rest, off2⟩, hrest, h⟩ := except_bind_ok h
      dsimp only at h
      have h2 := congrArg Prod.snd (Except.ok.inj h)
      dsimp at h2
      have h3 := ih _ _ _ hrest
      omega
    split at h
    · obtain ⟨strLen, hsl, h⟩ := except_bind_ok h
      split at h
      · rw [except_ok_bind] at h
        dsimp only at h
        obtain ⟨⟨rest, off2⟩, hrest, h⟩ := except_bind_ok h
        dsimp only at h
        have h2 := congrArg Prod.snd (Except.ok.inj h)
        dsimp at h2
        have h3 := ih _ _ _ hrest
        omega
      · rw [except_ok_bind] at h
        dsimp only at h
        obtain ⟨⟨rest, off2⟩, hrest, h⟩ := except_bind_ok h
        dsimp only at h
        have h2 := congrArg Prod.snd (Except.ok.inj h)
        dsimp at h2
        have h3 := ih _ _ _ hrest
        omega
    · rw [except_ok_bind] at h
      dsimp only at h
      obtain ⟨⟨rest, off2⟩, hrest, h⟩ := except_bind_ok h
      dsimp only at h
      have h2 := congrArg Prod.snd (Except.ok.inj h)
      dsimp at h2
      have h3 := ih _ _ _ hrest
      omega

theorem parseLocals_error (bytes : List Nat) :
    ∀ (count off : Nat) (e : ParseErr),
      parseLocals bytes count off = .error e → ScalarErr e := by
  intro count
  induction count with
  | zero =>
    intro off e h
    exact Except.noConfusion h
  | succ n ih =>
    intro off e h
    unfold parseLocals at h
    rcases except_bind_error h with h1 | ⟨nameLen, hnl, h⟩
    · exact Or.inl (readU32_error_shape h1).1
    dsimp only at h
    split at h
    · rcases except_bind_error h with h1 | ⟨⟨rest, off2⟩, hrest, h⟩
      · exact ih _ _ h1
      dsimp only at h
      exact Except.noConfusion h
    · rcases except_bind_error h with h1 | ⟨⟨rest, off2⟩, hrest, h⟩
      · exact ih _ _ h1
      dsimp only at h
      exact Except.noConfusion h

theorem parseLocals_ok_mono (bytes : List Nat) :
    ∀ (count off : Nat) (l : List (String × Nat × Nat)) (off' : Nat),
      parseLocals bytes count off = .ok (l, off') → off ≤ off' := by
  intro count
  induction count with
  | zero =>
    intro off l off' h
    unfold parseLocals at h
    have h2 := congrArg Prod.snd (Except.ok.inj h)
    dsimp at h2
    omega
  | succ n ih =>
    intro off l off' h
    unfold parseLocals at h
    obtain ⟨nameLen, hnl, h⟩ := except_bind_ok h
    dsimp only at h
    split at h
    · obtain ⟨⟨rest, off2⟩, hrest, h⟩ := except_bind_ok h
      dsimp only at h
      have h2 := congrArg Prod.snd (Except.ok.inj h)
      dsimp at h2
      have h3 := ih _ _ _ hrest
      omega
    · obtain ⟨⟨rest, off2⟩, hrest, h⟩ := except_bind_ok h
      dsimp only at h
      have h2 := congrArg Prod.snd (Except.ok.inj h)
      dsimp at h2
      have h3 := ih _ _ _ hrest
      omega

theorem parseUpvalueNames_error (bytes : List Nat) :
    ∀ (count off : Nat) (e : ParseErr),
      parseUpvalueNames bytes count off = .error e → ScalarErr e := by
  intro count
  induction count with
  | zero =>
    intro off e h
    exact Except.noConfusion h
  | succ n ih =>
    intro off e h
    unfold parseUpvalueNames at h
    rcases except_bind_error h with h1 | ⟨nameLen, hnl, h⟩
    · exact Or.inl (readU32_error_shape h1).1
    dsimp only at h
    split at h
    · rcases except_bind_error h with h1 | ⟨⟨rest, off2⟩, hrest, h⟩
      · exact ih _ _ h1
      dsimp only at h
      exact Except.noConfusion h
    · rcases except_bind_error h with h1 | ⟨⟨rest, off2⟩, hrest, h⟩
      · exact ih _ _ h1
      dsimp only at h
      exact Except.noConfusion h

theorem parseUpvalueNames_ok_mono (bytes : List Nat) :
    ∀ (count off : Nat) (l : List String) (off' : Nat),
      parseUpvalueNames bytes count off = .ok (l, off') → off ≤ off' := by
  intro count
  induction count with
  | zero =>
    intro off l off' h
    unfold parseUpvalueNames at h
    have h2 := congrArg Prod.snd (Except.ok.inj h)
    dsimp at h2
    omega
  | succ n ih =>
    intro off l off' h
    unfold parseUpvalueNames at h
    obtain ⟨nameLen, hnl, h⟩ := except_bind_ok h
    dsimp only at h
    split at h
    · obtain ⟨⟨rest, off2⟩, hrest, h⟩ := except_bind_ok h
      dsimp only at h
      have h2 := congrArg Prod.snd (Except.ok.inj h)
      dsimp at h2
      have h3 := ih _ _ _ hrest
      omega
    · obtain ⟨⟨rest, off2⟩, hrest, h⟩ := except_bind_ok h
      dsimp only at h
      have h2 := congrArg Prod.snd (Except.ok.inj h)
      dsimp at h2
      have h3 := ih _ _ _ hrest
      omega

theorem parseProtosWith_ok_mono {f : Nat → Except ParseErr (Func × Nat)}
    (hmono : ∀ o F o', f o = .ok (F, o') → o ≤ o') :
    ∀ (count off : Nat) (l : List Func) (off' : Nat),
      parseProtosWith f count off = .ok (l, off') → off ≤ off' := by
  intro count
  induction count with
  | zero =>
    intro off l off' h
    unfold parseProtosWith at h
    have h2 := congrArg Prod.snd (Except.ok.inj h)
    dsimp at h2
    omega
  | succ n ih =>
    intro off l off' h
    unfold parseProtosWith at h
    obtain ⟨⟨proto, off1⟩, hp, h⟩ := except_bind_ok h
    dsimp only at h
    obtain ⟨⟨rest, off2⟩, hr, h⟩ := except_bind_ok h
    dsimp only at h
    have h2 := congrArg Prod.snd (Except.ok.inj h)
    dsimp at h2
    have h3 := hmono _ _ _ hp
    have h4 := ih _ _ _ hr
    omega

theorem parseProtosWith_error_ex {f : Nat → Except ParseErr (Func × Nat)}
    (hmono : ∀ o F o', f o = .ok (F, o') → o ≤ o') :
    ∀ (count off : Nat) (e : ParseErr),
      parseProtosWith f count off = .error e →
      ∃ o, off ≤ o ∧ f o = .error e ∧
        (o = off ∨ ∃ oprev Fv, f oprev = .ok (Fv, o)) := by
  intro count
  induction count with
  | zero =>
    intro off e h
    exact Except.noConfusion h
  | succ n ih =>
    intro off e h
    unfold parseProtosWith at h
    rcases except_bind_error h with h1 | ⟨⟨proto, off1⟩, hp, h⟩
    · exact ⟨off, le_refl off, h1, Or.inl rfl⟩
    dsimp only at h
    rcases except_bind_error h with h1 | ⟨⟨rest, off2⟩, hr, h⟩
    · obtain ⟨o, ho, hfo, hd⟩ := ih _ _ h1
      refine ⟨o, le_trans (hmono _ _ _ hp) ho, hfo, Or.inr ?_⟩
      rcases hd with rfl | ⟨oprev, Fv, hok⟩
      · exact ⟨off, proto, hp⟩
      · exact ⟨oprev, Fv, hok⟩
    · dsimp only at h
      exact Except.noConfusion h

/-- A successful `_parse_function` call never moves the offset backwards. -/
theorem parseFunction_ok_mono (bytes : List Nat) :
    ∀ (fuel off : Nat) (F : Func) (off' : Nat),
      parseFunction bytes off fuel = .ok (F, off') → off ≤ off' := by
  intro fuel
  induction fuel with
  | zero =>
    intro off F off' h
    exact Except.noConfusion h
  | succ m ih =>
    intro off F off' h
    unfold parseFunction at h
    obtain ⟨sourceLen, hsl, h⟩ := except_bind_ok h
    split at h
    · dsimp only at h
      obtain ⟨lineDefined, hld, h⟩ := except_bind_ok h
      obtain ⟨lastLine, hll, h⟩ := except_bind_ok h
      obtain ⟨numUpvals, hnu, h⟩ := except_bind_ok h
      obtain ⟨numParams, hnp, h⟩ := except_bind_ok h
      obtain ⟨isVar, hiv, h⟩ := except_bind_ok h
      obtain ⟨maxStack, hms, h⟩ := except_bind_ok h
      obtain ⟨numInstr, hni, h⟩ := except_bind_ok h
      obtain ⟨⟨instrs, off10⟩, hI, h⟩ := except_bind_ok h
      dsimp only at h
      obtain ⟨numConsts, hnc, h⟩ := except_bind_ok h
      obtain ⟨⟨consts, off12⟩, hC, h⟩ := except_bind_ok h
      dsimp only at h
      obtain ⟨numProtos, hnpr, h⟩ := except_bind_ok h
      obtain ⟨⟨protos, off14⟩, hP, h⟩ := except_bind_ok h
      dsimp only at h
      obtain ⟨numLines, hnl, h⟩ := except_bind_ok h
      obtain ⟨numLocals, hnlo, h⟩ := except_bind_ok h
      obtain ⟨⟨locals, off17⟩, hL, h⟩ := except_bind_ok h
      dsimp only at h
      obtain ⟨numUp, hnup, h⟩ := except_bind_ok h
      obtain ⟨⟨ups, off19⟩, hU, h⟩ := except_bind_ok h
      dsimp only at h
      have h2 := congrArg Prod.snd (Except.ok.inj h)
      dsimp at h2
      have m1 := parseInstructions_ok_mono bytes _ _ _ _ _ hI
      have m2 := parseConstants_ok_mono bytes _ _ _ _ hC
      have m3 := parseProtosWith_ok_mono (fun o G o' hk => ih o G o' hk) _ _ _ _ hP
      have m4 := parseLocals_ok_mono bytes _ _ _ _ hL
      have m5 := parseUpvalueNames_ok_mono bytes _ _ _ _ hU
      omega
    · dsimp only at h
      obtain ⟨lineDefined, hld, h⟩ := except_bind_ok h
      obtain ⟨lastLine, hll, h⟩ := except_bind_ok h
      obtain ⟨numUpvals, hnu, h⟩ := except_bind_ok h
      obtain ⟨numParams, hnp, h⟩ := except_bind_ok h
      obtain ⟨isVar, hiv, h⟩ := except_bind_ok h
      obtain ⟨maxStack, hms, h⟩ := except_bind_ok h
      obtain ⟨numInstr, hni, h⟩ := except_bind_ok h
      obtain ⟨⟨instrs, off10⟩, hI, h⟩ := except_bind_ok h
      dsimp only at h
      obtain ⟨numConsts, hnc, h⟩ := except_bind_ok h
      obtain ⟨⟨consts, off12⟩, hC, h⟩ := except_bind_ok h
      dsimp only at h
      obtain ⟨numProtos, hnpr, h⟩ := except_bind_ok h
      obtain ⟨⟨protos, off14⟩, hP, h⟩ := except_bind_ok h
      dsimp only at h
      obtain ⟨numLines, hnl, h⟩ := except_bind_ok h
      obtain ⟨numLocals, hnlo, h⟩ := except_bind_ok h
      obtain ⟨⟨locals, off17⟩, hL, h⟩ := except_bind_ok h
      dsimp only at h
      obtain ⟨numUp, hnup, h⟩ := except_bind_ok h
      obtain ⟨⟨ups, off19⟩, hU, h⟩ := except_bind_ok h
      dsimp only at h
      have h2 := congrArg Prod.snd (Except.ok.inj h)
      dsimp at h2
      have m1 := parseInstructions_ok_mono bytes _ _ _ _ _ hI
      have m2 := parseConstants_ok_mono bytes _ _ _ _ hC
      have m3 := parseProtosWith_ok_mono (fun o G o' hk => ih o G o' hk) _ _ _ _ hP
      have m4 := parseLocals_ok_mono bytes _ _ _ _ hL
      have m5 := parseUpvalueNames_ok_mono bytes _ _ _ _ hU
      omega

/-- One level of `_parse_function` fails only with a scalar-read error,
provided every nested-prototype call it can make does.  A nested call starts
either at the offset right after the prototype-count read (which lies inside
the buffer) or at the end offset of a previous successful nested parse, and
always at least 28 bytes past the enclosing call's offset. -/
theorem parseFunction_error_step (bytes : List Nat) (g off : Nat) (e : ParseErr)
    (hchild : ∀ o, off + 28 ≤ o →
      (o ≤ bytes.length ∨ ∃ oprev Fv, parseFunction bytes oprev g = .ok (Fv, o)) →
      parseFunction bytes o g = .error e → ScalarErr e)
    (h : parseFunction bytes off (g + 1) = .error e) : ScalarErr e := by
  unfold parseFunction at h
  rcases except_bind_error h with h1 | ⟨sourceLen, hsl, h⟩
  · exact Or.inl (readU32_error_shape h1).1
  split at h
  · dsimp only at h
    rcases except_bind_error h with h1 | ⟨lineDefined, hld, h⟩
    · exact Or.inl (readU32_error_shape h1).1
    rcases except_bind_error h with h1 | ⟨lastLine, hll, h⟩
    · exact Or.inl (readU32_error_shape h1).1
    rcases except_bind_error h with h1 | ⟨numUpvals, hnu, h⟩
    · exact Or.inr (Or.inr (byteAt_error_shape h1).1)
    rcases except_bind_error h with h1 | ⟨numParams, hnp, h⟩
    · exact Or.inr (Or.inr (byteAt_error_shape h1).1)
    rcases except_bind_error h with h1 | ⟨isVar, hiv, h⟩
    · exact Or.inr (Or.inr (byteAt_error_shape h1).1)
    rcases except_bind_error h with h1 | ⟨maxStack, hms, h⟩
    · exact Or.inr (Or.inr (byteAt_error_shape h1).1)
    rcases except_bind_error h with h1 | ⟨numInstr, hni, h⟩
    · exact Or.inl (readU32_error_shape h1).1
    rcases except_bind_error h with h1 | ⟨⟨instrs, off10⟩, hI, h⟩
    · exact parseInstructions_error bytes _ _ _ _ h1
    dsimp only at h
    rcases except_bind_error h with h1 | ⟨numConsts, hnc, h⟩
    · exact Or.inl (readU32_error_shape h1).1
    rcases except_bind_error h with h1 | ⟨⟨consts, off12⟩, hC, h⟩
    · exact parseConstants_error bytes _ _ _ h1
    dsimp only at h
    rcases except_bind_error h with h1 | ⟨numProtos, hnpr, h⟩
    · exact Or.inl (readU32_error_shape h1).1
    rcases except_bind_error h with h1 | ⟨⟨protos, off14⟩, hP, h⟩
    · obtain ⟨o, ho, herr, hd⟩ := parseProtosWith_error_ex
        (fun o G o' hk => parseFunction_ok_mono bytes g o G o' hk) _ _ _ h1
      have hb := readU32_ok_bound hnpr
      have m1 := parseInstructions_ok_mono bytes _ _ _ _ _ hI
      have m2 := parseConstants_ok_mono bytes _ _ _ _ hC
      refine hchild o (by omega) ?_ herr
      rcases hd with rfl | ⟨oprev, Fv, hok⟩
      · left
        omega
      · right
        exact ⟨oprev, Fv, hok⟩
    dsimp only at h
    rcases except_bind_error h with h1 | ⟨numLines, hnl, h⟩
    · exact Or.inl (readU32_error_shape h1).1
    rcases except_bind_error h with h1 | ⟨numLocals, hnlo, h⟩
    · exact Or.inl (readU32_error_shape h1).1
    rcases except_bind_error h with h1 | ⟨⟨locals, off17⟩, hL, h⟩
    · exact parseLocals_error bytes _ _ _ h1
    dsimp only at h
    rcases except_bind_error h with h1 | ⟨numUp, hnup, h⟩
    · exact Or.inl (readU32_error_shape h1).1
    rcases except_bind_error h with h1 | ⟨⟨ups, off19⟩, hU, h⟩
    · exact parseUpvalueNames_error bytes _ _ _ h1
    dsimp only at h
    exact Except.noConfusion h
  · dsimp only at h
    rcases except_bind_error h with h1 | ⟨lineDefined, hld, h⟩
    · exact Or.inl (readU32_error_shape h1).1
    rcases except_bind_error h with h1 | ⟨lastLine, hll, h⟩
    · exact Or.inl (readU32_error_shape h1).1
    rcases except_bind_error h with h1 | ⟨numUpvals, hnu, h⟩
    · exact Or.inr (Or.inr (byteAt_error_shape h1).1)
    rcases except_bind_error h with h1 | ⟨numParams, hnp, h⟩
    · exact Or.inr (Or.inr (byteAt_error_shape h1).1)
    rcases except_bind_error h with h1 | ⟨isVar, hiv, h⟩
    · exact Or.inr (Or.inr (byteAt_error_shape h1).1)
    rcases except_bind_error h with h1 | ⟨maxStack, hms, h⟩
    · exact Or.inr (Or.inr (byteAt_error_shape h1).1)
    rcases except_bind_error h with h1 | ⟨numInstr, hni, h⟩
    · exact Or.inl (readU32_error_shape h1).1
    rcases except_bind_error h with h1 | ⟨⟨instrs, off10⟩, hI, h⟩
    · exact parseInstructions_error bytes _ _ _ _ h1
    dsimp only at h
    rcases except_bind_error h with h1 | ⟨numConsts, hnc, h⟩
    · exact Or.inl (readU32_error_shape h1).1
    rcases except_bind_error h with h1 | ⟨⟨consts, off12⟩, hC, h⟩
    · exact parseConstants_error bytes _ _ _ h1
    dsimp only at h
    rcases except_bind_error h with h1 | ⟨numProtos, hnpr, h⟩
    · exact Or.inl (readU32_error_shape h1).1
    rcases except_bind_error h with h1 | ⟨⟨protos, off14⟩, hP, h⟩
    · obtain ⟨o, ho, herr, hd⟩ := parseProtosWith_error_ex
        (fun o G o' hk => parseFunction_ok_mono bytes g o G o' hk) _ _ _ h1
      have hb := readU32_ok_bound hnpr
      have m1 := parseInstructions_ok_mono bytes _ _ _ _ _ hI
      have m2 := parseConstants_ok_mono bytes _ _ _ _ hC
      refine hchild o (by omega) ?_ herr
      rcases hd with rfl | ⟨oprev, Fv, hok⟩
      · left
        omega
      · right
        exact ⟨oprev, Fv, hok⟩
    dsimp only at h
    rcases except_bind_error h with h1 | ⟨numLines, hnl, h⟩
    · exact Or.inl (readU32_error_shape h1).1
    rcases except_bind_error h with h1 | ⟨numLocals, hnlo, h⟩
    · exact Or.inl (readU32_error_shape h1).1
    rcases except_bind_error h with h1 | ⟨⟨locals, off17⟩, hL, h⟩
    · exact parseLocals_error bytes _ _ _ h1
    dsimp only at h
    rcases except_bind_error h with h1 | ⟨numUp, hnup, h⟩
    · exact Or.inl (readU32_error_shape h1).1
    rcases except_bind_error h with h1 | ⟨⟨ups, off19⟩, hU, h⟩
    · exact parseUpvalueNames_error bytes _ _ _ h1
    dsimp only at h
    exact Except.noConfusion h

/-- `_parse_function` on a call of bounded depth fails only with a
scalar-read error: the recursion-fuel branch of the embedding is never hit,
because each nesting level starts at least 28 bytes further into the buffer
and a nested parse only begins at an offset inside the buffer. -/
theorem parseFunction_error_classify (bytes : List Nat) :
    ∀ (fuel off : Nat) (e : ParseErr),
      bytes.length < off + 28 * fuel + 28 →
      parseFunction bytes off (fuel + 1) = .error e → ScalarErr e := by
  intro fuel
  induction fuel with
  | zero =>
    intro off e hlen h
    refine parseFunction_error_step bytes 0 off e ?_ h
    intro o ho hdisj _herr
    exfalso
    rcases hdisj with hol | ⟨oprev, Fv, hok⟩
    · omega
    · exact Except.noConfusion hok
  | succ m ih =>
    intro off e hlen h
    refine parseFunction_error_step bytes (m + 1) off e ?_ h
    intro o ho _hdisj herr
    exact ih o e (by omega) herr

/-- C2 (amended): parse failure is characterized exactly.  A fixed-size
scalar read fails exactly when it extends past the end of the buffer: a
4-byte `struct.unpack('<I', ...)` read raises `struct.error` iff fewer than
4 bytes remain, a 1-byte index raises `IndexError` iff it is at or past the
end, and an 8-byte `struct.unpack('<d', ...)` read raises `struct.error`
iff fewer than 8 bytes remain.  `_parse_bytecode` fails iff the buffer is
shorter than 12 bytes, the magic signature mismatches, or the version byte
is not 0x51 (each with its exact `ValueError` message), or the main-function
parse hits such a truncated scalar read; in the last case the error is one
of the three scalar-read errors — never another `ValueError` and never a
recursion bound, since each prototype nesting level starts at least 28
bytes further into the buffer.  (The original claim also required failure
on every over-long length-prefixed string read and after a configurable
depth bound; the counterexample shows an over-long string read that parses
successfully, and no depth bound exists in the code.) -/
theorem parse_failure_characterization (bytes : List Nat) :
    (∀ off, (readU32 bytes off = .error (.structError 4) ↔
        bytes.length < off + 4) ∧
      (byteAt bytes off = .error .indexError ↔ bytes.length ≤ off) ∧
      (readF64Bytes bytes off = .error (.structError 8) ↔
        bytes.length < off + 8)) ∧
    (∀ e, parseBytecode bytes = .error e ↔
      ((bytes.length < 12 ∧ e = .valueError "Invalid bytecode: too short") ∨
       (12 ≤ bytes.length ∧ bytes.take 4 ≠ luaSignature ∧
         e = .valueError "Invalid Lua bytecode signature") ∨
       (12 ≤ bytes.length ∧ bytes.take 4 = luaSignature ∧
         bytes.getD 4 0 ≠ 81 ∧
         e = .valueError ("Unsupported Lua version: " ++
           hexByte (bytes.getD 4 0) ++ " (expected 0x51 for Lua 5.1)")) ∨
       (12 ≤ bytes.length ∧ bytes.take 4 = luaSignature ∧
         bytes.getD 4 0 = 81 ∧
         parseFunction bytes 12 (bytes.length + 1) = .error e ∧
         (e = .structError 4 ∨ e = .structError 8 ∨ e = .indexError)))) := by
  refine ⟨fun off => ⟨⟨fun h => (readU32_error_shape h).2,
      fun h => readU32_short h⟩,
    ⟨fun h => (byteAt_error_shape h).2, fun h => byteAt_short h⟩,
    ⟨fun h => (readF64Bytes_error_shape h).2,
      fun h => readF64Bytes_short h⟩⟩, ?_⟩
  intro e
  constructor
  · intro h
    unfold parseBytecode at h
    by_cases h12 : bytes.length < 12
    · rw [if_pos h12] at h
      exact Or.inl ⟨h12, (Except.error.inj h).symm⟩
    rw [if_neg h12] at h
    by_cases hsig : bytes.take 4 ≠ luaSignature
    · rw [if_pos hsig] at h
      exact Or.inr (Or.inl ⟨by omega, hsig, (Except.error.inj h).symm⟩)
    rw [if_neg hsig] at h
    rw [byteAt_ok bytes 4 (by omega)] at h
    dsimp only at h
    by_cases hv : bytes.getD 4 0 ≠ 81
    · rw [if_pos hv] at h
      exact Or.inr (Or.inr (Or.inl ⟨by omega, not_not.mp hsig, hv,
        (Except.error.inj h).symm⟩))
    rw [if_neg hv] at h
    cases hpf : parseFunction bytes 12 (bytes.length + 1) with
    | error e2 =>
      rw [hpf] at h
      dsimp only at h
      have he : e2 = e := Except.error.inj h
      subst he
      have hsc : ScalarErr e2 :=
        parseFunction_error_classify bytes bytes.length 12 e2 (by omega) hpf
      exact Or.inr (Or.inr (Or.inr ⟨by omega, not_not.mp hsig,
        not_not.mp hv, rfl, hsc⟩))
    | ok p =>
      obtain ⟨mainF, offF⟩ := p
      rw [hpf] at h
      dsimp only at h
      exact Except.noConfusion h
  · intro hcase
    rcases hcase with ⟨h12, rfl⟩ | ⟨h12, hsig, rfl⟩ |
      ⟨h12, hsig, hv, rfl⟩ | ⟨h12, hsig, hv, hpf, _⟩
    · simp [parseBytecode, h12]
    · simp [parseBytecode, Nat.not_lt.mpr h12, hsig]
    · have hb : byteAt bytes 4 = .ok (bytes.getD 4 0) := byteAt_ok bytes 4 (by omega)
      have h3' : ¬ bytes[4]?.getD 0 = 81 := by simpa [List.getD] using hv
      simp [parseBytecode, Nat.not_lt.mpr h12, hsig, hb, h3']
    · have hb : byteAt bytes 4 = .ok (bytes.getD 4 0) := byteAt_ok bytes 4 (by omega)
      have hv' : bytes[4]?.getD 0 = 81 := by simpa [List.getD] using hv
      simp [parseBytecode, Nat.not_lt.mpr h12, hsig, hb, hv', hpf]

/-- Witness for the amended C2: a valid 12-byte header with nothing after it
fails with exactly the 4-byte scalar-read `struct.error` (from the
source-name length read), and a 12-byte all-zero buffer is rejected for its
signature. -/
theorem parse_failure_characterization_witness :
    parseBytecode [27, 76, 117, 97, 81, 0, 0, 0, 0, 0, 0, 0] =
      .error (.structError 4) ∧
    parseBytecode (List.replicate 12 0) =
      .error (.valueError "Invalid Lua bytecode signature") :=
  ⟨((parse_failure_characterization _).2 _).mpr
      (Or.inr (Or.inr (Or.inr ⟨by decide, rfl, rfl, rfl, Or.inl rfl⟩))),
    ((parse_failure_characterization _).2 _).mpr
      (Or.inr (Or.inl ⟨by decide, by decide, rfl⟩))⟩

/-- A 58-byte buffer: valid header, empty main function, one upvalue-name
entry whose length prefix at offset 52 declares 100 bytes while only 2 bytes
remain after the prefix. -/
def cexTruncated : List Nat :=
  [27, 76, 117, 97, 81, 0, 0, 0, 0, 0, 0, 0,
   0, 0, 0, 0, 0, 0, 0, 0, 0, 0, 0, 0,
   0, 0, 0, 0,
   0, 0, 0, 0, 0, 0, 0, 0, 0, 0, 0, 0, 0, 0, 0, 0, 0, 0, 0, 0,
   1, 0, 0, 0, 100, 0, 0, 0, 65, 66]

/-- Counterexample to C2 as stated: `cexTruncated` declares a 100-byte
length-prefixed upvalue-name read at offset 52 with only two payload bytes
remaining (the buffer is 58 bytes long), so "a length-prefixed read would
run past the end of the buffer" — yet the parse succeeds, because Python
slices truncate silently.  Hence parse failure is not equivalent to the
claimed condition (a), (b), (c) or (d); and the claimed depth bound (d) does
not exist in the code. -/
theorem parse_not_failing_on_overlong_read :
    (parseBytecode cexTruncated).isOk = true ∧
    readU32 cexTruncated 52 = .ok 100 ∧
    cexTruncated.length = 58 :=
  ⟨rfl, rfl, rfl⟩

end ClaimC2

section ClaimC3

/-- Counterexample to C3 as stated: the constant `"/w=="` round-trips under
base64 byte-for-byte (it decodes to the byte `0xFF` and re-encodes to
itself), so the claim says it is replaced and counted — but its payload is
not valid UTF-8, the guarded decode fails, and the code leaves it untouched
with a count of zero. -/
theorem deobfuscation_skips_non_utf8_base64 :
    isBase64Encoded "/w==" = true ∧
    detectStringObfuscation [Const.str "/w=="] = [] :=
  ⟨rfl, rfl⟩

/-- Uppercase hex digits decode with the same nibble values as
`bytes.fromhex`: `"FF"` yields the byte `0xFF`, whose strict UTF-8 decode
fails, so the constant `"FF"` is left untouched — as in Python. -/
theorem hexDecode_uppercase_byte :
    hexVal 'A' = some 10 ∧
    hexDecode ['F', 'F'] = some [255] ∧
    isHexEncoded "FF" = true ∧
    deobfuscateConst "FF" = none :=
  ⟨rfl, rfl, rfl, rfl⟩

/-- C3 (amended): a string constant is replaced (and counted) if and only if
either it round-trips under base64 AND its decoded bytes are valid UTF-8
text, or it does NOT round-trip under base64 but is valid hex (non-empty,
even length, all hex digits) AND its decoded bytes are valid UTF-8 text; the
decoded text is the replacement.  The base64 test has priority: a string
that round-trips under base64 but decodes to invalid UTF-8 is left untouched
even when its hex reading would decode to valid text. -/
theorem deobfuscated_constants_characterization (constants : List Const)
    (i : Nat) (t : String) :
    (i, t) ∈ detectStringObfuscation constants ↔
      ∃ s, constants.get? i = some (Const.str s) ∧
        ((isBase64Encoded s = true ∧ (b64DecodeStr s).bind decodeStrict = some t) ∨
         (isBase64Encoded s = false ∧ isHexEncoded s = true ∧
           (hexDecode s.data).bind decodeStrict = some t)) := by
  unfold detectStringObfuscation
  rw [List.mem_filterMap]
  constructor
  · rintro ⟨⟨j, c⟩, hmem, hf⟩
    rw [List.mk_mem_enum_iff_getElem?] at hmem
    cases c with
    | str s =>
      simp only [Option.map_eq_some'] at hf
      obtain ⟨u, hu, huv⟩ := hf
      cases huv
      refine ⟨s, by rw [List.get?_eq_getElem?]; exact hmem, ?_⟩
      unfold deobfuscateConst at hu
      split at hu
      · exact Or.inl ⟨by assumption, hu⟩
      · split at hu
        · rename_i hb hh
          simp only [Bool.not_eq_true] at hb
          exact Or.inr ⟨hb, hh, hu⟩
        · simp at hu
    | nil => simp at hf
    | bool b => simp at hf
    | num bs => simp at hf
  · rintro ⟨s, hs, hbranch⟩
    refine ⟨(i, Const.str s), ?_, ?_⟩
    · rw [List.mk_mem_enum_iff_getElem?, ← List.get?_eq_getElem?]
      exact hs
    · simp only [Option.map_eq_some']
      refine ⟨t, ?_, rfl⟩
      unfold deobfuscateConst
      rcases hbranch with ⟨hb, hd⟩ | ⟨hb, hh, hd⟩
      · rw [hb]
        simpa using hd
      · rw [hb, hh]
        simpa using hd

/-- Witness for the amended C3: the constant `"SGVsbG8="` is valid base64
for `"Hello"`, is replaced with `"Hello"`, and is counted exactly once. -/
theorem deobfuscated_constants_characterization_witness :
    (0, "Hello") ∈ detectStringObfuscation [Const.str "SGVsbG8="] ∧
    (detectStringObfuscation [Const.str "SGVsbG8="]).length = 1 :=
  ⟨(deobfuscated_constants_characterization [Const.str "SGVsbG8="] 0 "Hello").mpr
     ⟨"SGVsbG8=", rfl, Or.inl ⟨rfl, rfl⟩⟩,
   rfl⟩

end ClaimC3

section ClaimC1

/-- The fall-through target the edge builder uses for a block. -/
def fallThroughTarget (blocks : List Block) (b : Block) : Finset Nat :=
  match findBlockByPc blocks (b.endPc + 1) with
  | some t => {t}
  | none => ∅

/-- Characterization of the raw successor list under this repository's
opcode set: because no opcode name contains `"JUMP"`, the jump and branch
arms of `_build_cfg_edges` are dead code, and a block's successors are the
fall-through block unless the block is empty or ends in `RETURN`. -/
theorem blockRawSuccessors_eq (blocks : List Block) (b : Block) :
    blockRawSuccessors blocks b =
      match b.instructions.getLast? with
      | none => []
      | some lastInstr =>
        if lastInstr.opcode = OpCode.RETURN then []
        else
          match findBlockByPc blocks (b.endPc + 1) with
          | some t => [t]
          | none => [] := by
  unfold blockRawSuccessors
  cases hl : b.instructions.getLast? with
  | none => rfl
  | some lastInstr =>
    dsimp only
    rw [opcodeName_no_JUMP]
    simp only [Bool.false_eq_true, if_false]
    by_cases hr : lastInstr.opcode = OpCode.RETURN
    · rw [if_pos hr,
        if_neg (show ¬ lastInstr.opcode.name ≠ "RETURN" from
          fun hc => hc ((opcodeName_eq_RETURN lastInstr.opcode).mpr hr))]
    · rw [if_neg hr,
        if_pos (show lastInstr.opcode.name ≠ "RETURN" from
          fun hc => hr ((opcodeName_eq_RETURN lastInstr.opcode).mp hc))]

/-- C1 (amended): in the CFG the analyzer actually builds, a block ending in
`RETURN` (or containing no instruction) has no successors, and every other
block has exactly the single fall-through edge to the block containing
`end_pc + 1` (none if that program counter is outside every block).  In
particular no block ever receives a jump-target or branch edge: the edge
builder tests `'JUMP' in name` and `'IF' in name`, and no opcode name of
this repository contains those substrings, so `JMP` and `EQ`/`LT`/`LE`
blocks are treated like ordinary fall-through blocks. -/
theorem cfg_successors_fall_through_only (instrs : List Instruction)
    (b : Block) (hb : b ∈ buildCFG instrs) :
    b.successors =
      (match b.instructions.getLast? with
       | none => (∅ : Finset Nat)
       | some lastInstr =>
         if lastInstr.opcode = OpCode.RETURN then ∅
         else fallThroughTarget (mkBlocks instrs) b) := by
  rw [buildCFG, buildCfgEdges] at hb
  obtain ⟨a, _, rfl⟩ := List.mem_map.mp hb
  dsimp only
  rw [blockRawSuccessors_eq]
  cases a.instructions.getLast? with
  | none => rfl
  | some lastInstr =>
    dsimp only
    by_cases hr : lastInstr.opcode = OpCode.RETURN
    · rw [if_pos hr, if_pos hr]
      rfl
    · rw [if_neg hr, if_neg hr]
      unfold fallThroughTarget
      cases findBlockByPc (mkBlocks instrs) (a.endPc + 1) with
      | none => rfl
      | some t => rfl

/-- Witness for the amended C1 on `[JMP +1, MOVE, MOVE]`: the first built
block is a member of the CFG and its successor set is exactly the
fall-through prescription. -/
theorem cfg_successors_fall_through_only_witness :
    ((buildCFG [mkInstr .JMP 0 0 0 1 1, mkInstr .MOVE 0 0 0 0 0,
        mkInstr .MOVE 1 0 0 0 0]).getD 0 default ∈
      buildCFG [mkInstr .JMP 0 0 0 1 1, mkInstr .MOVE 0 0 0 0 0,
        mkInstr .MOVE 1 0 0 0 0]) ∧
    ((buildCFG [mkInstr .JMP 0 0 0 1 1, mkInstr .MOVE 0 0 0 0 0,
        mkInstr .MOVE 1 0 0 0 0]).getD 0 default).successors =
      (match ((buildCFG [mkInstr .JMP 0 0 0 1 1, mkInstr .MOVE 0 0 0 0 0,
          mkInstr .MOVE 1 0 0 0 0]).getD 0 default).instructions.getLast? with
       | none => (∅ : Finset Nat)
       | some lastInstr =>
         if lastInstr.opcode = OpCode.RETURN then ∅
         else fallThroughTarget
           (mkBlocks [mkInstr .JMP 0 0 0 1 1, mkInstr .MOVE 0 0 0 0 0,
             mkInstr .MOVE 1 0 0 0 0])
           ((buildCFG [mkInstr .JMP 0 0 0 1 1, mkInstr .MOVE 0 0 0 0 0,
             mkInstr .MOVE 1 0 0 0 0]).getD 0 default)) :=
  ⟨by decide,
   cfg_successors_fall_through_only
     [mkInstr .JMP 0 0 0 1 1, mkInstr .MOVE 0 0 0 0 0, mkInstr .MOVE 1 0 0 0 0]
     _ (by decide)⟩

/-- Counterexample to C1 as stated: in `[JMP +1, MOVE, MOVE]` the first
block ends in the unconditional jump `JMP` whose resolved target
(`end_pc + Bx + 1 = 2`) lies in block 2, so the claim requires the single
successor edge `{2}` — but the builder produces the fall-through edge `{1}`,
because `'JUMP' in 'JMP'` is false in Python. -/
theorem cfg_jmp_block_gets_fall_through_edge :
    (((buildCFG [mkInstr .JMP 0 0 0 1 1, mkInstr .MOVE 0 0 0 0 0,
        mkInstr .MOVE 1 0 0 0 0]).getD 0 default).instructions.getLast?).map
      (·.opcode) = some OpCode.JMP ∧
    findBlockByPc
      (mkBlocks [mkInstr .JMP 0 0 0 1 1, mkInstr .MOVE 0 0 0 0 0,
        mkInstr .MOVE 1 0 0 0 0]) 2 = some 2 ∧
    ((buildCFG [mkInstr .JMP 0 0 0 1 1, mkInstr .MOVE 0 0 0 0 0,
        mkInstr .MOVE 1 0 0 0 0]).getD 0 default).successors = {1} ∧
    ((buildCFG [mkInstr .JMP 0 0 0 1 1, mkInstr .MOVE 0 0 0 0 0,
        mkInstr .MOVE 1 0 0 0 0]).getD 0 default).successors ≠ {2} := by
  refine ⟨by decide, by decide, by decide, by decide⟩

end ClaimC1

section ClaimC8

instance : Inhabited LoopInfo :=
  ⟨⟨0, ∅, ∅, "", 0⟩⟩

/-- Nesting-level invariant: every recorded loop's nesting level is the
count, among the loops discovered strictly earlier, of those whose body
contains the loop's header and whose header differs from it. -/
def NestingRecorded (loops : List LoopInfo) : Prop :=
  ∀ j, j < loops.length →
    (loops.getD j default).nestingLevel =
      (loops.take j).countP fun L =>
        decide ((loops.getD j default).header ∈ L.body) &&
        decide (L.header ≠ (loops.getD j default).header)

theorem nestingRecorded_append (acc : List LoopInfo) (x : LoopInfo)
    (hx : x.nestingLevel = calculateNestingLevel acc x.header)
    (h : NestingRecorded acc) : NestingRecorded (acc ++ [x]) := by
  intro j hj
  rw [List.length_append, List.length_cons, List.length_nil] at hj
  rcases Nat.lt_or_ge j acc.length with hlt | hge
  · have e1 : (acc ++ [x]).getD j default = acc.getD j default :=
      List.getD_append _ _ _ _ hlt
    have e2 : (acc ++ [x]).take j = acc.take j :=
      List.take_append_of_le_length (le_of_lt hlt)
    simp only [e1, e2]
    exact h j hlt
  · have hje : j = acc.length := by omega
    subst hje
    have e1 : (acc ++ [x]).getD acc.length default = x := by
      rw [List.getD_append_right _ _ _ _ (le_refl _), Nat.sub_self]
      exact List.getD_cons_zero
    have e2 : (acc ++ [x]).take acc.length = acc := by
      rw [List.take_append_of_le_length (le_refl _), List.take_length]
    simp only [e1, e2]
    rw [hx]
    rfl

theorem nestingRecorded_step (blocks : List Block) (acc : List LoopInfo)
    (p : Nat × Nat) (h : NestingRecorded acc) :
    NestingRecorded (detectLoopsStep blocks acc p) :=
  nestingRecorded_append acc
    { header := p.2, body := findNaturalLoop blocks p.1 p.2,
      exits := findLoopExits blocks (findNaturalLoop blocks p.1 p.2),
      loopType := classifyLoopType blocks p.2 (findNaturalLoop blocks p.1 p.2),
      nestingLevel := calculateNestingLevel acc p.2 } rfl h

theorem nestingRecorded_foldl (blocks : List Block) (edges : List (Nat × Nat))
    (acc : List LoopInfo) (h : NestingRecorded acc) :
    NestingRecorded (edges.foldl (detectLoopsStep blocks) acc) := by
  induction edges generalizing acc with
  | nil => exact h
  | cons e es ih =>
    rw [List.foldl_cons]
    exact ih _ (nestingRecorded_step blocks acc e h)

/-- C8 (amended): the nesting level recorded for a detected loop's header
equals the count of loops discovered strictly earlier (in back-edge
discovery order: ascending tail block id, then ascending head id) whose body
contains that header, excluding loops whose header is the same block.
Loops discovered later are not counted, so the recorded value depends on the
discovery order. -/
theorem nesting_level_counts_earlier_loops (blocks : List Block) (i : Nat)
    (h : i < (detectLoops blocks).length) :
    ((detectLoops blocks).getD i default).nestingLevel =
      ((detectLoops blocks).take i).countP (fun L =>
        decide (((detectLoops blocks).getD i default).header ∈ L.body) &&
        decide (L.header ≠ ((detectLoops blocks).getD i default).header)) := by
  have := nestingRecorded_foldl blocks (backEdges blocks) []
    (fun j hj => absurd hj (by simp))
  exact this i h

/-- Two nested natural loops: blocks `0 → 1 → 2 → 1` (inner back edge
`2 → 1`) and `2 → 3 → 0` (outer back edge `3 → 0`).  The inner loop is
discovered first (its tail has the smaller id). -/
def cexLoopBlocks : List Block :=
  withDominators
    [{ id := 0, startPc := 0, endPc := 0, instructions := [],
       predecessors := {3}, successors := {1}, dominators := ∅ },
     { id := 1, startPc := 1, endPc := 1, instructions := [],
       predecessors := {0, 2}, successors := {2}, dominators := ∅ },
     { id := 2, startPc := 2, endPc := 2, instructions := [],
       predecessors := {1}, successors := {1, 3}, dominators := ∅ },
     { id := 3, startPc := 3, endPc := 3, instructions := [],
       predecessors := {2}, successors := {0}, dominators := ∅ }]

/-- Witness for the amended C8 on `cexLoopBlocks` at the second discovered
loop. -/
theorem nesting_level_counts_earlier_loops_witness :
    1 < (detectLoops cexLoopBlocks).length ∧
    ((detectLoops cexLoopBlocks).getD 1 default).nestingLevel =
      ((detectLoops cexLoopBlocks).take 1).countP (fun L =>
        decide (((detectLoops cexLoopBlocks).getD 1 default).header ∈ L.body) &&
        decide (L.header ≠ ((detectLoops cexLoopBlocks).getD 1 default).header)) :=
  ⟨by decide, nesting_level_counts_earlier_loops cexLoopBlocks 1 (by decide)⟩

/-- Counterexample to C8 as stated: on `cexLoopBlocks` the detector finds
the inner loop (header 1, body `{1, 2}`) before the outer loop (header 0,
body `{0, 1, 2, 3}`), and records nesting level 0 for the inner loop's
header — but the count of distinct detected loops whose body contains block
1, excluding loops with header 1, is 1 (the outer loop).  The recorded value
is therefore not the order-independent count the claim describes. -/
theorem detect_loops_nesting_order_dependent :
    (detectLoops cexLoopBlocks).map (fun L => (L.header, L.nestingLevel)) =
      [(1, 0), (0, 0)] ∧
    ((detectLoops cexLoopBlocks).countP fun L =>
      decide (1 ∈ L.body) && decide (L.header ≠ 1)) = 1 := by
  refine ⟨by decide, by decide⟩

end ClaimC8

section ClaimC4

/-- Optimization score as the specification words it: start at 0; add 2 if
the jump ratio exceeds 0.3 or the unreachable-block ratio exceeds 0.2, else
add 1 if the jump ratio exceeds 0.1; add 1 if the constant-load ratio
exceeds 0.5.  Ratios are compared exactly (`jumps / total > 3 / 10` written
as `10 * jumps > 3 * total`). -/
def optScoreSpec (instrs : List Instruction) (blocks : List Block) : Nat :=
  let total := instrs.length
  let jumps := instrs.countP fun ins => decide (ins.opcode.name = "JMP")
  let constLoads := instrs.countP fun ins =>
    decide (ins.opcode.name = "LOADK" ∨ ins.opcode.name = "LOADN")
  let unreachable := blocks.length - (markReachable blocks).card
  (if 10 * jumps > 3 * total ∨
      (blocks.length ≠ 0 ∧ 5 * unreachable > blocks.length) then 2
   else if 10 * jumps > total then 1
   else 0) +
  (if 2 * constLoads > total then 1 else 0)

/-- Score-to-level mapping of the specification. -/
def optLevelOfScore (score : Nat) : OptimizationLevel :=
  if score ≥ 3 then .OBFUSCATED
  else if score ≥ 2 then .AGGRESSIVE
  else if score ≥ 1 then .BASIC
  else .NONE

/-- The counting fold equals a pair of `countP`s (the two conditions are
mutually exclusive because an opcode has a single name). -/
theorem optCountStep_foldl (instrs : List Instruction) (init : Nat × Nat) :
    instrs.foldl optCountStep init =
      (init.1 + instrs.countP (fun ins => decide (ins.opcode.name = "JMP")),
       init.2 + instrs.countP (fun ins =>
         decide (ins.opcode.name = "LOADK" ∨ ins.opcode.name = "LOADN"))) := by
  induction instrs generalizing init with
  | nil => simp
  | cons a l ih =>
    rw [List.foldl_cons, ih]
    unfold optCountStep
    by_cases h1 : a.opcode.name = "JMP"
    · have h2 : ¬ (a.opcode.name = "LOADK" ∨ a.opcode.name = "LOADN") := by
        rw [h1]; decide
      rw [if_pos h1]
      refine Prod.ext ?_ ?_
      · simp [List.countP_cons, h1]
        omega
      · simp [List.countP_cons, h2]
    · rw [if_neg h1]
      by_cases h2 : a.opcode.name = "LOADK" ∨ a.opcode.name = "LOADN"
      · rw [if_pos h2]
        refine Prod.ext ?_ ?_
        · simp [List.countP_cons, h1]
        · simp [List.countP_cons, h2]
          omega
      · rw [if_neg h2]
        refine Prod.ext ?_ ?_
        · simp [List.countP_cons, h1]
        · simp [List.countP_cons, h2]

/-- C4: for every instruction list with at least one instruction, the
detected optimization level is exactly the level of the specification's
score. -/
theorem optimization_level_scoring (instrs : List Instruction)
    (blocks : List Block) (h : 0 < instrs.length) :
    detectOptimizationLevel instrs blocks =
      optLevelOfScore (optScoreSpec instrs blocks) := by
  unfold detectOptimizationLevel optScoreSpec optLevelOfScore
  rw [if_neg (by omega)]
  rw [optCountStep_foldl]
  dsimp only
  simp only [Nat.zero_add]

/-- Witness for C4 on `[JMP +1, MOVE, MOVE]` (jump ratio 1/3 exceeds 0.3:
score 2, level `AGGRESSIVE`). -/
theorem optimization_level_scoring_witness :
    0 < ([mkInstr .JMP 0 0 0 1 1, mkInstr .MOVE 0 0 0 0 0,
      mkInstr .MOVE 1 0 0 0 0] : List Instruction).length ∧
    detectOptimizationLevel
        [mkInstr .JMP 0 0 0 1 1, mkInstr .MOVE 0 0 0 0 0,
          mkInstr .MOVE 1 0 0 0 0]
        (buildCFG [mkInstr .JMP 0 0 0 1 1, mkInstr .MOVE 0 0 0 0 0,
          mkInstr .MOVE 1 0 0 0 0]) =
      optLevelOfScore (optScoreSpec
        [mkInstr .JMP 0 0 0 1 1, mkInstr .MOVE 0 0 0 0 0,
          mkInstr .MOVE 1 0 0 0 0]
        (buildCFG [mkInstr .JMP 0 0 0 1 1, mkInstr .MOVE 0 0 0 0 0,
          mkInstr .MOVE 1 0 0 0 0])) :=
  ⟨by decide,
   optimization_level_scoring _ _ (by decide)⟩

end ClaimC4

section ClaimC6

theorem mem_ascMembers {bound : Nat} {s : Finset Nat} {x : Nat} :
    x ∈ ascMembers bound s ↔ x < bound ∧ x ∈ s := by
  simp [ascMembers]

theorem ascMembers_sorted (bound : Nat) (s : Finset Nat) :
    (ascMembers bound s).Sorted (· < ·) :=
  (List.pairwise_lt_range bound).filter _

theorem mem_ite_insert {c : Prop} [Decidable c] {a y : Nat} {s : Finset Nat}
    (h : y ∈ if c then insert a s else s) : (c ∧ y = a) ∨ y ∈ s := by
  split at h
  · rcases Finset.mem_insert.mp h with h1 | h1
    · exact Or.inl ⟨by assumption, h1⟩
    · exact Or.inr h1
  · exact Or.inr h

theorem subset_leadersStep (len : Nat) (s : Finset Nat)
    (p : Nat × Instruction) : s ⊆ leadersStep len s p := by
  intro x hx
  unfold leadersStep
  split
  · dsimp only
    have h1 : x ∈ (if p.1 + p.2.d + 1 < len
        then insert (p.1 + p.2.d + 1) s else s) := by
      split
      · exact Finset.mem_insert_of_mem hx
      · exact hx
    split
    · exact Finset.mem_insert_of_mem h1
    · exact h1
  · split
    · split
      · exact Finset.mem_insert_of_mem hx
      · exact hx
    · exact hx

theorem leadersStep_bound (len : Nat) (s : Finset Nat) (p : Nat × Instruction)
    (hs : ∀ y ∈ s, y = 0 ∨ y < len) :
    ∀ y ∈ leadersStep len s p, y = 0 ∨ y < len := by
  intro y hy
  unfold leadersStep at hy
  split at hy
  · dsimp only at hy
    rcases mem_ite_insert hy with ⟨hc, he⟩ | hy2
    · right; omega
    rcases mem_ite_insert hy2 with ⟨hc, he⟩ | hy3
    · right; omega
    exact hs y hy3
  · split at hy
    · rcases mem_ite_insert hy with ⟨hc, he⟩ | hy2
      · right; omega
      exact hs y hy2
    · exact hs y hy

theorem subset_foldl_leadersStep (len : Nat) (l : List (Nat × Instruction))
    (s : Finset Nat) : s ⊆ l.foldl (leadersStep len) s := by
  induction l generalizing s with
  | nil => exact fun x hx => hx
  | cons a l ih =>
    rw [List.foldl_cons]
    exact (subset_leadersStep len s a).trans (ih _)

theorem foldl_leadersStep_bound (len : Nat) (l : List (Nat × Instruction))
    (s : Finset Nat) (hs : ∀ y ∈ s, y = 0 ∨ y < len) :
    ∀ y ∈ l.foldl (leadersStep len) s, y = 0 ∨ y < len := by
  induction l generalizing s with
  | nil => exact hs
  | cons a l ih =>
    rw [List.foldl_cons]
    exact ih _ (leadersStep_bound len s a hs)

theorem zero_mem_leadersFinset (instrs : List Instruction) :
    0 ∈ leadersFinset instrs :=
  subset_foldl_leadersStep _ _ _ (Finset.mem_singleton_self 0)

theorem leadersFinset_bound (instrs : List Instruction) :
    ∀ y ∈ leadersFinset instrs, y = 0 ∨ y < instrs.length :=
  foldl_leadersStep_bound _ _ _
    (fun _y hy => Or.inl (Finset.mem_singleton.mp hy))

theorem mem_leadersList {instrs : List Instruction} {x : Nat} :
    x ∈ leadersList instrs ↔ x ∈ leadersFinset instrs := by
  rw [leadersList, mem_ascMembers]
  constructor
  · exact fun h => h.2
  · intro h
    refine ⟨?_, h⟩
    rcases leadersFinset_bound instrs x h with h0 | hlt <;> omega

theorem leadersList_sorted (instrs : List Instruction) :
    (leadersList instrs).Sorted (· < ·) :=
  ascMembers_sorted _ _

theorem leadersList_length_pos (instrs : List Instruction) :
    0 < (leadersList instrs).length :=
  List.length_pos.mpr
    (List.ne_nil_of_mem (mem_leadersList.mpr (zero_mem_leadersFinset instrs)))

theorem leadersList_getD_mono (instrs : List Instruction) {i j : Nat}
    (hij : i ≤ j) (hj : j < (leadersList instrs).length) :
    (leadersList instrs).getD i 0 ≤ (leadersList instrs).getD j 0 := by
  rcases Nat.eq_or_lt_of_le hij with rfl | hlt
  · exact le_refl _
  · have hi : i < (leadersList instrs).length := lt_trans hlt hj
    rw [List.getD_eq_getElem _ _ hi, List.getD_eq_getElem _ _ hj]
    have h2 := (leadersList_sorted instrs).get_strictMono
      (a := ⟨i, hi⟩) (b := ⟨j, hj⟩) hlt
    simpa [List.get_eq_getElem] using le_of_lt h2

theorem leadersList_getD_zero (instrs : List Instruction) :
    (leadersList instrs).getD 0 0 = 0 := by
  obtain ⟨j, hj, hval⟩ := List.mem_iff_getElem.mp
    (mem_leadersList.mpr (zero_mem_leadersFinset instrs))
  have hle := leadersList_getD_mono instrs (Nat.zero_le j) hj
  have hpos := leadersList_length_pos instrs
  rw [List.getD_eq_getElem _ _ hpos, List.getD_eq_getElem _ _ hj] at hle
  rw [List.getD_eq_getElem _ _ hpos]
  omega

theorem mkBlocks_length (instrs : List Instruction) :
    (mkBlocks instrs).length = (leadersList instrs).length := by
  unfold mkBlocks
  rw [List.length_map, List.length_range]

theorem mkBlocks_getD (instrs : List Instruction) (bid : Nat)
    (h : bid < (mkBlocks instrs).length) :
    (mkBlocks instrs).getD bid default =
      mkBlockAt instrs (leadersList instrs) bid := by
  have h' : bid < (List.range (leadersList instrs).length).length := by
    rw [List.length_range]
    rw [mkBlocks_length] at h
    exact h
  unfold mkBlocks
  rw [List.getD_eq_getElem _ _ (by unfold mkBlocks at h; exact h),
    List.getElem_map, List.getElem_range]

/-- Inclusive program-counter containment, the condition
`block.start_pc <= pc <= block.end_pc` of `_find_block_by_pc`. -/
def blockContainsPc (b : Block) (k : Nat) : Prop :=
  b.startPc ≤ k ∧ (k : Int) ≤ b.endPc

theorem mkBlockAt_contains_iff (instrs : List Instruction) (bid k : Nat)
    (hk : k < instrs.length) :
    blockContainsPc (mkBlockAt instrs (leadersList instrs) bid) k ↔
      ((leadersList instrs).getD bid 0 ≤ k ∧
        (bid + 1 < (leadersList instrs).length →
          k < (leadersList instrs).getD (bid + 1) 0)) := by
  unfold blockContainsPc mkBlockAt
  dsimp only
  by_cases hb1 : bid + 1 < (leadersList instrs).length
  · rw [if_pos hb1]
    constructor
    · rintro ⟨h1, h2⟩
      exact ⟨h1, fun _ => by omega⟩
    · rintro ⟨h1, h2⟩
      have := h2 hb1
      exact ⟨h1, by omega⟩
  · rw [if_neg hb1]
    constructor
    · rintro ⟨h1, _⟩
      exact ⟨h1, fun hc => absurd hc hb1⟩
    · rintro ⟨h1, _⟩
      exact ⟨h1, by omega⟩

/-- C6: the basic blocks exactly partition the instruction index space
`[0, N)` — every instruction index lies in exactly one block — and block ids
are the dense range `0, 1, ..., number of blocks - 1` in order. -/
theorem cfg_blocks_partition (instrs : List Instruction) :
    ((mkBlocks instrs).map (·.id) = List.range (mkBlocks instrs).length) ∧
    ∀ k, k < instrs.length →
      ∃! bid, bid < (mkBlocks instrs).length ∧
        blockContainsPc ((mkBlocks instrs).getD bid default) k := by
  constructor
  · unfold mkBlocks
    rw [List.map_map, List.length_map, List.length_range]
    calc (List.range (leadersList instrs).length).map
          ((·.id) ∘ mkBlockAt instrs (leadersList instrs))
        = (List.range (leadersList instrs).length).map id :=
          List.map_congr_left (fun a _ => rfl)
      _ = List.range (leadersList instrs).length := List.map_id _
  · intro k hk
    have hpos : 0 < (leadersList instrs).length := leadersList_length_pos instrs
    have hL0 : (leadersList instrs).getD 0 0 = 0 := leadersList_getD_zero instrs
    have hmlen : (mkBlocks instrs).length = (leadersList instrs).length :=
      mkBlocks_length instrs
    have h0S : 0 ∈ (Finset.range (leadersList instrs).length).filter
        (fun i => (leadersList instrs).getD i 0 ≤ k) := by
      rw [Finset.mem_filter, Finset.mem_range]
      exact ⟨hpos, by rw [hL0]; exact Nat.zero_le k⟩
    have hSne : ((Finset.range (leadersList instrs).length).filter
        (fun i => (leadersList instrs).getD i 0 ≤ k)).Nonempty := ⟨0, h0S⟩
    have hiS := Finset.max'_mem _ hSne
    rw [Finset.mem_filter, Finset.mem_range] at hiS
    obtain ⟨hilt, hile⟩ := hiS
    have hnext : Finset.max' _ hSne + 1 < (leadersList instrs).length →
        k < (leadersList instrs).getD (Finset.max' _ hSne + 1) 0 := by
      intro h1
      by_contra hc
      push_neg at hc
      have hmem : Finset.max' _ hSne + 1 ∈
          (Finset.range (leadersList instrs).length).filter
            (fun i => (leadersList instrs).getD i 0 ≤ k) := by
        rw [Finset.mem_filter, Finset.mem_range]
        exact ⟨h1, hc⟩
      have := Finset.le_max' _ _ hmem
      omega
    refine ⟨Finset.max' _ hSne, ⟨by omega, ?_⟩, ?_⟩
    · rw [mkBlocks_getD instrs _ (by omega)]
      exact (mkBlockAt_contains_iff instrs _ k hk).mpr ⟨hile, hnext⟩
    · rintro j ⟨hjlt, hjc⟩
      have hjlt' : j < (leadersList instrs).length := by omega
      rw [mkBlocks_getD instrs j hjlt] at hjc
      have hjc' := (mkBlockAt_contains_iff instrs j k hk).mp hjc
      have hjS : j ∈ (Finset.range (leadersList instrs).length).filter
          (fun i => (leadersList instrs).getD i 0 ≤ k) := by
        rw [Finset.mem_filter, Finset.mem_range]
        exact ⟨hjlt', hjc'.1⟩
      have hjle : j ≤ Finset.max' _ hSne := Finset.le_max' _ _ hjS
      rcases Nat.eq_or_lt_of_le hjle with he | hjlt2
      · exact he
      · exfalso
        have hj1 : j + 1 < (leadersList instrs).length := by omega
        have hklt := hjc'.2 hj1
        have hmono := leadersList_getD_mono instrs
          (show j + 1 ≤ Finset.max' _ hSne by omega) hilt
        omega

/-- Witness for C6 on `[JMP +1, MOVE, MOVE]` at instruction index 1. -/
theorem cfg_blocks_partition_witness :
    1 < ([mkInstr .JMP 0 0 0 1 1, mkInstr .MOVE 0 0 0 0 0,
      mkInstr .MOVE 1 0 0 0 0] : List Instruction).length ∧
    ∃! bid, bid < (mkBlocks [mkInstr .JMP 0 0 0 1 1, mkInstr .MOVE 0 0 0 0 0,
        mkInstr .MOVE 1 0 0 0 0]).length ∧
      blockContainsPc ((mkBlocks [mkInstr .JMP 0 0 0 1 1,
        mkInstr .MOVE 0 0 0 0 0, mkInstr .MOVE 1 0 0 0 0]).getD bid default) 1 :=
  ⟨by decide,
   (cfg_blocks_partition [mkInstr .JMP 0 0 0 1 1, mkInstr .MOVE 0 0 0 0 0,
     mkInstr .MOVE 1 0 0 0 0]).2 1 (by decide)⟩

end ClaimC6

section ListSetLemmas

theorem getD_set_self {α : Type} [Inhabited α] {d : List α} {i : Nat}
    (h : i < d.length) (v dflt : α) : (d.set i v).getD i dflt = v := by
  rw [List.getD_eq_getElem _ _ (by simpa using h), List.getElem_set_self]

theorem getD_set_ne {α : Type} {d : List α} {i j : Nat} (hne : i ≠ j)
    (v dflt : α) : (d.set i v).getD j dflt = d.getD j dflt := by
  simp [List.getD, List.getElem?_set_ne hne]

theorem mem_foldl_inter {x : Nat} (l : List Nat) (f : Nat → Finset Nat)
    (acc : Finset Nat) :
    (x ∈ l.foldl (fun a p => a ∩ f p) acc) ↔ (x ∈ acc ∧ ∀ p ∈ l, x ∈ f p) := by
  induction l generalizing acc with
  | nil => simp
  | cons a l ih =>
    rw [List.foldl_cons, ih]
    simp only [Finset.mem_inter, List.mem_cons]
    constructor
    · rintro ⟨⟨h1, h2⟩, h3⟩
      exact ⟨h1, fun p hp => by rcases hp with rfl | hp; exacts [h2, h3 p hp]⟩
    · rintro ⟨h1, h2⟩
      exact ⟨⟨h1, h2 a (Or.inl rfl)⟩, fun p hp => h2 p (Or.inr hp)⟩

end ListSetLemmas

section ClaimC5

/-- Invariant of the dominance fixpoint: state length matches the block
count, the entry keeps the singleton `{entry}` it was initialized with, and
the entry belongs to every block's dominator set. -/
def DomInv (blocks : List Block) (d : List (Finset Nat)) : Prop :=
  d.length = blocks.length ∧
  d.getD 0 ∅ = {0} ∧
  ∀ b, b < blocks.length → 0 ∈ d.getD b ∅

theorem domInit_getD (blocks : List Block) (b : Nat)
    (h : b < blocks.length) :
    (domInit blocks).getD b ∅ =
      if b = 0 then {0} else allBlockIds blocks := by
  unfold domInit
  rw [List.getD_eq_getElem _ _ (by simpa using h), List.getElem_map,
    List.getElem_range]

theorem domInit_inv (blocks : List Block) (h0 : 0 < blocks.length) :
    DomInv blocks (domInit blocks) := by
  refine ⟨by simp [domInit], ?_, ?_⟩
  · rw [domInit_getD blocks 0 h0, if_pos rfl]
  · intro b hb
    rw [domInit_getD blocks b hb]
    split
    · exact Finset.mem_singleton_self 0
    · rw [allBlockIds]
      exact Finset.mem_range.mpr h0

theorem domStepBlock_inv (blocks : List Block) (d : List (Finset Nat))
    (bid : Nat) (h0 : 0 < blocks.length) (inv : DomInv blocks d) :
    DomInv blocks (domStepBlock blocks d bid) := by
  unfold domStepBlock
  split
  · exact inv
  · rename_i hbid
    dsimp only
    refine ⟨by rw [List.length_set]; exact inv.1, ?_, ?_⟩
    · rw [getD_set_ne hbid]
      exact inv.2.1
    · intro b hb
      by_cases hbe : bid = b
      · subst hbe
        by_cases hlt : bid < d.length
        · rw [getD_set_self hlt]
          refine Finset.mem_insert_of_mem ?_
          rw [mem_foldl_inter]
          refine ⟨Finset.mem_range.mpr h0, ?_⟩
          intro p hp
          exact inv.2.2 p (mem_ascMembers.mp hp).1
        · rw [List.set_eq_of_length_le (by omega)]
          exact inv.2.2 bid hb
      · rw [getD_set_ne hbe]
        exact inv.2.2 b hb

theorem domPass_inv (blocks : List Block) (d : List (Finset Nat))
    (h0 : 0 < blocks.length) (inv : DomInv blocks d) :
    DomInv blocks (domPass blocks d) := by
  unfold domPass
  have hgen : ∀ (l : List Nat) (d : List (Finset Nat)), DomInv blocks d →
      DomInv blocks (l.foldl (domStepBlock blocks) d) := by
    intro l
    induction l with
    | nil => exact fun d h => h
    | cons a l ih =>
      intro d h
      rw [List.foldl_cons]
      exact ih _ (domStepBlock_inv blocks d a h0 h)
  exact hgen _ d inv

theorem domLoop_inv (blocks : List Block) (fuel : Nat)
    (d : List (Finset Nat)) (h0 : 0 < blocks.length) (inv : DomInv blocks d) :
    DomInv blocks (domLoop blocks fuel d) := by
  induction fuel generalizing d with
  | zero => exact inv
  | succ fuel ih =>
    unfold domLoop
    dsimp only
    split
    · exact inv
    · exact ih _ (domPass_inv blocks d h0 inv)

theorem computeDominance_inv (blocks : List Block) (h0 : 0 < blocks.length) :
    DomInv blocks (computeDominance blocks) := by
  unfold computeDominance
  rw [if_neg (by omega)]
  exact domLoop_inv blocks _ _ h0 (domInit_inv blocks h0)

/-- Reachability from block `a` to block `b` along successor edges. -/
def ReachableFrom (blocks : List Block) (a b : Nat) : Prop :=
  Relation.ReflTransGen (fun x y => y ∈ (blocks.getD x default).successors) a b

/-- C5: once the dominance fixpoint has run, the entry block's dominator set
is exactly `{entry}`, and the entry belongs to the dominator set of every
block reachable from it.  (The proof establishes the second part for every
block, reachable or not: the entry survives every intersection because it is
in every predecessor's dominator set throughout the iteration.)  The
hypothesis that predecessor sets name valid block ids is the condition under
which the embedding coincides with the Python dict-based loop, whose
predecessor lookups assume valid keys. -/
theorem dominance_entry (blocks : List Block) (h0 : 0 < blocks.length)
    (_hvalid : ∀ b ∈ blocks, b.predecessors ⊆ Finset.range blocks.length) :
    (computeDominance blocks).getD 0 ∅ = {0} ∧
    ∀ bid, bid < blocks.length → ReachableFrom blocks 0 bid →
      0 ∈ (computeDominance blocks).getD bid ∅ := by
  have inv := computeDominance_inv blocks h0
  exact ⟨inv.2.1, fun bid hb _ => inv.2.2 bid hb⟩

/-- Witness for C5 on the CFG of `[MOVE, RETURN]` (a single block). -/
theorem dominance_entry_witness :
    (0 < (buildCFG [mkInstr .MOVE 0 0 0 0 0,
        mkInstr .RETURN 0 1 0 0 0]).length ∧
      (∀ b ∈ buildCFG [mkInstr .MOVE 0 0 0 0 0, mkInstr .RETURN 0 1 0 0 0],
        b.predecessors ⊆
          Finset.range (buildCFG [mkInstr .MOVE 0 0 0 0 0,
            mkInstr .RETURN 0 1 0 0 0]).length)) ∧
    (computeDominance (buildCFG [mkInstr .MOVE 0 0 0 0 0,
      mkInstr .RETURN 0 1 0 0 0])).getD 0 ∅ = {0} ∧
    (0 ∈ (computeDominance (buildCFG [mkInstr .MOVE 0 0 0 0 0,
      mkInstr .RETURN 0 1 0 0 0])).getD 0 ∅) :=
  ⟨⟨by decide, by decide⟩,
   (dominance_entry _ (by decide) (by decide)).1,
   (dominance_entry _ (by decide) (by decide)).2 0 (by decide)
     Relation.ReflTransGen.refl⟩

end ClaimC5

section ClaimC7

/-- Suffix of the liveness pass: process blocks `N-1, N-2, ..., k` (the pass
itself is `passFrom 0`). -/
def passFrom (blocks : List Block) (k : Nat) (df : List DataFlowInfo) :
    List DataFlowInfo :=
  ((List.range' k (blocks.length - k)).reverse).foldl
    (livenessStepBlock blocks) df

theorem livenessPass_eq_passFrom (blocks : List Block)
    (df : List DataFlowInfo) :
    livenessPass blocks df = passFrom blocks 0 df := by
  unfold livenessPass passFrom
  rw [List.range_eq_range']
  simp

theorem passFrom_stop (blocks : List Block) (k : Nat)
    (df : List DataFlowInfo) (h : blocks.length ≤ k) :
    passFrom blocks k df = df := by
  unfold passFrom
  rw [Nat.sub_eq_zero_of_le h]
  rfl

theorem passFrom_step (blocks : List Block) (k : Nat)
    (df : List DataFlowInfo) (h : k < blocks.length) :
    passFrom blocks k df =
      livenessStepBlock blocks (passFrom blocks (k + 1) df) k := by
  unfold passFrom
  have h1 : blocks.length - k = (blocks.length - (k + 1)) + 1 := by omega
  rw [h1]
  rw [show List.range' k ((blocks.length - (k + 1)) + 1) =
    k :: List.range' (k + 1) (blocks.length - (k + 1)) from rfl]
  rw [List.reverse_cons, List.foldl_append]
  rfl

theorem livenessStepBlock_length (blocks : List Block)
    (df : List DataFlowInfo) (bid : Nat) :
    (livenessStepBlock blocks df bid).length = df.length := by
  unfold livenessStepBlock
  rw [List.length_set]

theorem livenessStepBlock_getD_ne (blocks : List Block)
    (df : List DataFlowInfo) (bid i : Nat) (hne : bid ≠ i) :
    (livenessStepBlock blocks df bid).getD i default = df.getD i default := by
  unfold livenessStepBlock
  exact getD_set_ne hne _ _

theorem livenessStepBlock_getD_self (blocks : List Block)
    (df : List DataFlowInfo) (bid : Nat) (h : bid < df.length) :
    (livenessStepBlock blocks df bid).getD bid default =
      { df.getD bid default with
        liveOut := ((blocks.getD bid default).successors).biUnion
          (fun s => (df.getD s default).liveIn),
        liveIn := regsOf (df.getD bid default).uses ∪
          ((((blocks.getD bid default).successors).biUnion
            (fun s => (df.getD s default).liveIn)) \
            regsOf (df.getD bid default).definitions) } := by
  unfold livenessStepBlock
  exact getD_set_self h _ _

theorem passFrom_length (blocks : List Block) (k : Nat)
    (df : List DataFlowInfo) : (passFrom blocks k df).length = df.length := by
  unfold passFrom
  generalize (List.range' k (blocks.length - k)).reverse = l
  induction l generalizing df with
  | nil => rfl
  | cons a l ih =>
    rw [List.foldl_cons, ih]
    exact livenessStepBlock_length blocks df a

theorem passFrom_untouched (blocks : List Block) (df : List DataFlowInfo) :
    ∀ m k i, blocks.length - k ≤ m → (i < k ∨ blocks.length ≤ i) →
      (passFrom blocks k df).getD i default = df.getD i default := by
  intro m
  induction m with
  | zero =>
    intro k i hm _
    rw [passFrom_stop blocks k df (by omega)]
  | succ m ih =>
    intro k i hm hi
    by_cases hk : k < blocks.length
    · rw [passFrom_step blocks k df hk]
      rw [livenessStepBlock_getD_ne blocks _ k i (by omega)]
      exact ih (k + 1) i (by omega) (by omega)
    · rw [passFrom_stop blocks k df (by omega)]

theorem passFrom_final (blocks : List Block) (df : List DataFlowInfo) :
    ∀ m k bid, bid < blocks.length → k ≤ bid → bid - k ≤ m →
      (passFrom blocks k df).getD bid default =
        (livenessStepBlock blocks (passFrom blocks (bid + 1) df) bid).getD bid
          default := by
  intro m
  induction m with
  | zero =>
    intro k bid hbid hk hm
    have hkb : k = bid := by omega
    subst hkb
    rw [passFrom_step blocks k df hbid]
  | succ m ih =>
    intro k bid hbid hk hm
    by_cases hkb : k = bid
    · subst hkb
      rw [passFrom_step blocks k df hbid]
    · rw [passFrom_step blocks k df (by omega)]
      rw [livenessStepBlock_getD_ne blocks _ k bid (by omega)]
      exact ih (k + 1) bid hbid (by omega) (by omega)

/-- The entry of the pass result at a processed block, in terms of the pass
result itself (for already-processed, larger ids) and the initial state (for
not-yet-processed ids). -/
theorem livenessPass_getD_char (blocks : List Block) (df : List DataFlowInfo)
    (hlen : df.length = blocks.length) (bid : Nat) (hbid : bid < blocks.length) :
    (livenessPass blocks df).getD bid default =
      { df.getD bid default with
        liveOut := ((blocks.getD bid default).successors).biUnion
          (fun s => (if bid < s then (livenessPass blocks df).getD s default
            else df.getD s default).liveIn),
        liveIn := regsOf (df.getD bid default).uses ∪
          ((((blocks.getD bid default).successors).biUnion
            (fun s => (if bid < s then (livenessPass blocks df).getD s default
              else df.getD s default).liveIn)) \
            regsOf (df.getD bid default).definitions) } := by
  have hmid : ∀ s, (passFrom blocks (bid + 1) df).getD s default =
      (if bid < s then (livenessPass blocks df).getD s default
        else df.getD s default) := by
    intro s
    by_cases h1 : s < bid + 1
    · rw [if_neg (by omega)]
      exact passFrom_untouched blocks df (blocks.length - (bid + 1)) (bid + 1) s
        (le_refl _) (Or.inl h1)
    · by_cases h2 : s < blocks.length
      · rw [if_pos (by omega)]
        rw [livenessPass_eq_passFrom]
        rw [passFrom_final blocks df (s - (bid + 1)) (bid + 1) s h2 (by omega)
          (le_refl _)]
        rw [passFrom_final blocks df s 0 s h2 (Nat.zero_le s) (by omega)]
      · rw [if_pos (by omega)]
        rw [livenessPass_eq_passFrom]
        rw [passFrom_untouched blocks df (blocks.length - (bid + 1)) (bid + 1) s
          (le_refl _) (Or.inr (by omega))]
        rw [passFrom_untouched blocks df blocks.length 0 s (by omega)
          (Or.inr (by omega))]
  have hmlen : (passFrom blocks (bid + 1) df).length = df.length :=
    passFrom_length blocks (bid + 1) df
  rw [livenessPass_eq_passFrom,
    passFrom_final blocks df bid 0 bid hbid (Nat.zero_le bid) (by omega),
    livenessStepBlock_getD_self blocks _ bid (by omega)]
  rw [hmid bid, if_neg (by omega)]
  have hbi : ∀ (g1 g2 : Nat → Finset Nat), (∀ s, g1 s = g2 s) →
      ((blocks.getD bid default).successors).biUnion g1 =
        ((blocks.getD bid default).successors).biUnion g2 := by
    intro g1 g2 hg
    exact Finset.biUnion_congr rfl (fun s _ => hg s)
  rw [hbi _ _ (fun s => by rw [hmid s])]
  rw [livenessPass_eq_passFrom]

theorem livenessStepBlock_frames (blocks : List Block)
    (df : List DataFlowInfo) (bid i : Nat) :
    ((livenessStepBlock blocks df bid).getD i default).uses =
      (df.getD i default).uses ∧
    ((livenessStepBlock blocks df bid).getD i default).definitions =
      (df.getD i default).definitions := by
  by_cases hne : bid = i
  · subst hne
    by_cases hlt : bid < df.length
    · rw [livenessStepBlock_getD_self blocks df bid hlt]
      exact ⟨rfl, rfl⟩
    · unfold livenessStepBlock
      rw [List.set_eq_of_length_le (by omega)]
      exact ⟨rfl, rfl⟩
  · rw [livenessStepBlock_getD_ne blocks df bid i hne]
    exact ⟨rfl, rfl⟩

theorem foldl_livenessStep_frames (blocks : List Block) (l : List Nat) :
    ∀ (df : List DataFlowInfo) (i : Nat),
      ((l.foldl (livenessStepBlock blocks) df).getD i default).uses =
        (df.getD i default).uses ∧
      ((l.foldl (livenessStepBlock blocks) df).getD i default).definitions =
        (df.getD i default).definitions := by
  induction l with
  | nil => exact fun df i => ⟨rfl, rfl⟩
  | cons a l ih =>
    intro df i
    rw [List.foldl_cons]
    rcases ih (livenessStepBlock blocks df a) i with ⟨h1, h2⟩
    rcases livenessStepBlock_frames blocks df a i with ⟨h3, h4⟩
    exact ⟨h1.trans h3, h2.trans h4⟩

theorem livenessPass_frames (blocks : List Block) (df : List DataFlowInfo)
    (i : Nat) :
    ((livenessPass blocks df).getD i default).uses =
      (df.getD i default).uses ∧
    ((livenessPass blocks df).getD i default).definitions =
      (df.getD i default).definitions :=
  foldl_livenessStep_frames blocks _ df i

theorem livenessPass_length (blocks : List Block) (df : List DataFlowInfo) :
    (livenessPass blocks df).length = df.length := by
  rw [livenessPass_eq_passFrom]
  exact passFrom_length blocks 0 df

theorem liveIn_eq_of_liveInsOf_eq (d1 d2 : List DataFlowInfo)
    (hlen : d1.length = d2.length) (h : liveInsOf d1 = liveInsOf d2) :
    ∀ i, (d1.getD i default).liveIn = (d2.getD i default).liveIn := by
  intro i
  by_cases hi : i < d1.length
  · have he : (liveInsOf d1).getD i ∅ = (liveInsOf d2).getD i ∅ := by rw [h]
    unfold liveInsOf at he
    rw [List.getD_eq_getElem _ _ (by simpa using hi),
      List.getD_eq_getElem _ _ (by simp; omega)] at he
    rw [List.getD_eq_getElem _ _ hi, List.getD_eq_getElem _ _ (by omega)]
    simpa [List.getElem_map] using he
  · rw [List.getD_eq_default _ _ (by omega),
      List.getD_eq_default _ _ (by omega)]

/-- If a pass leaves every `live_in` unchanged, the resulting state
satisfies both data-flow equations and is a true fixpoint of the pass. -/
theorem pass_fix_of_liveIns_stable (blocks : List Block)
    (df : List DataFlowInfo) (hlen : df.length = blocks.length)
    (hst : liveInsOf (livenessPass blocks df) = liveInsOf df) :
    (∀ bid, bid < blocks.length →
      (((livenessPass blocks df).getD bid default).liveOut =
        ((blocks.getD bid default).successors).biUnion
          (fun s => ((livenessPass blocks df).getD s default).liveIn)) ∧
      (((livenessPass blocks df).getD bid default).liveIn =
        regsOf ((livenessPass blocks df).getD bid default).uses ∪
          (((livenessPass blocks df).getD bid default).liveOut \
            regsOf ((livenessPass blocks df).getD bid default).definitions))) ∧
    livenessPass blocks (livenessPass blocks df) = livenessPass blocks df := by
  have hPlen : (livenessPass blocks df).length = df.length :=
    livenessPass_length blocks df
  have hIn : ∀ i, ((livenessPass blocks df).getD i default).liveIn =
      (df.getD i default).liveIn :=
    liveIn_eq_of_liveInsOf_eq _ _ hPlen hst
  have hbi : ∀ (t : Finset Nat) (g1 g2 : Nat → Finset Nat),
      (∀ s, g1 s = g2 s) → t.biUnion g1 = t.biUnion g2 :=
    fun t g1 g2 hg => Finset.biUnion_congr rfl (fun s _ => hg s)
  have hchar : ∀ bid, bid < blocks.length →
      (livenessPass blocks df).getD bid default =
        { df.getD bid default with
          liveOut := ((blocks.getD bid default).successors).biUnion
            (fun s => ((livenessPass blocks df).getD s default).liveIn),
          liveIn := regsOf (df.getD bid default).uses ∪
            ((((blocks.getD bid default).successors).biUnion
              (fun s => ((livenessPass blocks df).getD s default).liveIn)) \
              regsOf (df.getD bid default).definitions) } := by
    intro bid hbid
    rw [livenessPass_getD_char blocks df hlen bid hbid]
    have hg : ∀ s, (if bid < s then (livenessPass blocks df).getD s default
        else df.getD s default).liveIn =
        ((livenessPass blocks df).getD s default).liveIn := by
      intro s
      split
      · rfl
      · exact (hIn s).symm
    rw [hbi _ _ _ hg]
  have hout : ∀ bid, bid < blocks.length →
      ((livenessPass blocks df).getD bid default).liveOut =
        ((blocks.getD bid default).successors).biUnion
          (fun s => ((livenessPass blocks df).getD s default).liveIn) := by
    intro bid hbid
    rw [hchar bid hbid]
  have hin : ∀ bid, bid < blocks.length →
      ((livenessPass blocks df).getD bid default).liveIn =
        regsOf ((livenessPass blocks df).getD bid default).uses ∪
          (((livenessPass blocks df).getD bid default).liveOut \
            regsOf ((livenessPass blocks df).getD bid default).definitions) := by
    intro bid hbid
    rcases livenessPass_frames blocks df bid with ⟨hu, hd⟩
    rw [hu, hd, hout bid hbid]
    conv_lhs => rw [hchar bid hbid]
  refine ⟨fun bid hbid => ⟨hout bid hbid, hin bid hbid⟩, ?_⟩
  have hPPlen : (livenessPass blocks (livenessPass blocks df)).length =
      (livenessPass blocks df).length :=
    livenessPass_length blocks _
  have hkey : ∀ m s, s < blocks.length → blocks.length - s ≤ m →
      (livenessPass blocks (livenessPass blocks df)).getD s default =
        (livenessPass blocks df).getD s default := by
    intro m
    induction m with
    | zero => intro s hs hm; omega
    | succ m ih =>
      intro s hs hm
      rw [livenessPass_getD_char blocks (livenessPass blocks df)
        (by omega) s hs]
      have hg : ∀ t, (if s < t then
          (livenessPass blocks (livenessPass blocks df)).getD t default
          else (livenessPass blocks df).getD t default) =
          (livenessPass blocks df).getD t default := by
        intro t
        split
        · rename_i hst2
          by_cases ht : t < blocks.length
          · exact ih t ht (by omega)
          · rw [livenessPass_eq_passFrom, livenessPass_eq_passFrom,
              passFrom_untouched blocks _ blocks.length 0 t (by omega)
                (Or.inr (by omega)),
              passFrom_untouched blocks df blocks.length 0 t (by omega)
                (Or.inr (by omega))]
        · rfl
      have hgl : ∀ t, (if s < t then
          (livenessPass blocks (livenessPass blocks df)).getD t default
          else (livenessPass blocks df).getD t default).liveIn =
          ((livenessPass blocks df).getD t default).liveIn := by
        intro t
        rw [hg t]
      rw [hbi _ _ _ hgl]
      rw [← hout s hs]
      rw [← hin s hs]
  apply List.ext_getElem (by omega)
  intro i h1 h2
  have hi : i < blocks.length := by omega
  have := hkey blocks.length i hi (by omega)
  rw [List.getD_eq_getElem _ _ h1, List.getD_eq_getElem _ _ h2] at this
  exact this

/-- Pointwise order on data-flow entries: live sets grow, def/use frames
stay fixed. -/
def dfLEat (x y : DataFlowInfo) : Prop :=
  x.liveIn ⊆ y.liveIn ∧ x.liveOut ⊆ y.liveOut ∧ x.uses = y.uses ∧
    x.definitions = y.definitions

/-- Pointwise order on liveness states. -/
def dfLE (d1 d2 : List DataFlowInfo) : Prop :=
  d1.length = d2.length ∧ ∀ i, dfLEat (d1.getD i default) (d2.getD i default)

theorem livenessStepBlock_of_length_le (blocks : List Block)
    (df : List DataFlowInfo) (bid : Nat) (h : df.length ≤ bid) :
    livenessStepBlock blocks df bid = df := by
  unfold livenessStepBlock
  exact List.set_eq_of_length_le (by simpa using h)

theorem livenessStepBlock_mono (blocks : List Block)
    {d1 d2 : List DataFlowInfo} (bid : Nat) (h : dfLE d1 d2) :
    dfLE (livenessStepBlock blocks d1 bid) (livenessStepBlock blocks d2 bid) := by
  have hl12 : d1.length = d2.length := h.1
  refine ⟨by rw [livenessStepBlock_length, livenessStepBlock_length]; exact h.1,
    fun i => ?_⟩
  by_cases hne : bid = i
  · subst hne
    by_cases hlt : bid < d1.length
    · have hlt2 : bid < d2.length := by omega
      rw [livenessStepBlock_getD_self blocks d1 bid hlt,
        livenessStepBlock_getD_self blocks d2 bid hlt2]
      have hO : ((blocks.getD bid default).successors).biUnion
            (fun s => (d1.getD s default).liveIn) ⊆
          ((blocks.getD bid default).successors).biUnion
            (fun s => (d2.getD s default).liveIn) :=
        Finset.biUnion_mono (fun s _ => (h.2 s).1)
      refine ⟨?_, hO, (h.2 bid).2.2.1, (h.2 bid).2.2.2⟩
      rw [(h.2 bid).2.2.1, (h.2 bid).2.2.2]
      exact Finset.union_subset_union (le_refl _)
        (Finset.sdiff_subset_sdiff hO (le_refl _))
    · rw [livenessStepBlock_of_length_le blocks d1 bid (by omega),
        livenessStepBlock_of_length_le blocks d2 bid (by omega)]
      exact h.2 bid
  · rw [livenessStepBlock_getD_ne blocks d1 bid i hne,
      livenessStepBlock_getD_ne blocks d2 bid i hne]
    exact h.2 i

theorem livenessPass_mono (blocks : List Block) {d1 d2 : List DataFlowInfo}
    (h : dfLE d1 d2) :
    dfLE (livenessPass blocks d1) (livenessPass blocks d2) := by
  unfold livenessPass
  generalize (List.range blocks.length).reverse = l
  induction l generalizing d1 d2 with
  | nil => exact h
  | cons a l ih =>
    rw [List.foldl_cons, List.foldl_cons]
    exact ih (livenessStepBlock_mono blocks a h)

/-- Every live-in set stays inside the register universe `U`. -/
def LiveInBounded (U : Finset Nat) (df : List DataFlowInfo) : Prop :=
  ∀ i, (df.getD i default).liveIn ⊆ U

theorem livenessStepBlock_bounded (blocks : List Block) (U : Finset Nat)
    (df : List DataFlowInfo) (bid : Nat)
    (huses : ∀ i, regsOf ((df.getD i default).uses) ⊆ U)
    (hb : LiveInBounded U df) :
    LiveInBounded U (livenessStepBlock blocks df bid) := by
  intro i
  by_cases hne : bid = i
  · subst hne
    by_cases hlt : bid < df.length
    · rw [livenessStepBlock_getD_self blocks df bid hlt]
      refine Finset.union_subset (huses bid) ?_
      refine (Finset.sdiff_subset).trans ?_
      exact Finset.biUnion_subset.mpr (fun s _ => hb s)
    · rw [livenessStepBlock_of_length_le blocks df bid (by omega)]
      exact hb bid
  · rw [livenessStepBlock_getD_ne blocks df bid i hne]
    exact hb i

theorem livenessPass_bounded (blocks : List Block) (U : Finset Nat)
    (df : List DataFlowInfo)
    (huses : ∀ i, regsOf ((df.getD i default).uses) ⊆ U)
    (hb : LiveInBounded U df) :
    LiveInBounded U (livenessPass blocks df) := by
  unfold livenessPass
  generalize (List.range blocks.length).reverse = l
  induction l generalizing df with
  | nil => exact hb
  | cons a l ih =>
    rw [List.foldl_cons]
    refine ih (livenessStepBlock blocks df a) ?_
      (livenessStepBlock_bounded blocks U df a huses hb)
    intro i
    rw [(livenessStepBlock_frames blocks df a i).1]
    exact huses i

/-- Total size of the live-in sets over the block ids. -/
def liveMeasure (blocks : List Block) (df : List DataFlowInfo) : Nat :=
  ∑ i ∈ Finset.range blocks.length, ((df.getD i default).liveIn).card

theorem liveMeasure_le (blocks : List Block) (U : Finset Nat)
    (df : List DataFlowInfo) (hb : LiveInBounded U df) :
    liveMeasure blocks df ≤ blocks.length * U.card := by
  unfold liveMeasure
  calc ∑ i ∈ Finset.range blocks.length, ((df.getD i default).liveIn).card
      ≤ ∑ _i ∈ Finset.range blocks.length, U.card :=
        Finset.sum_le_sum (fun i _ => Finset.card_le_card (hb i))
    _ = blocks.length * U.card := by
        rw [Finset.sum_const, Finset.card_range, smul_eq_mul]

theorem liveMeasure_lt (blocks : List Block) {d1 d2 : List DataFlowInfo}
    (hle : dfLE d1 d2) (hlen1 : d1.length = blocks.length)
    (hne : liveInsOf d1 ≠ liveInsOf d2) :
    liveMeasure blocks d1 < liveMeasure blocks d2 := by
  have hdiff : ∃ i, i < blocks.length ∧
      (d1.getD i default).liveIn ≠ (d2.getD i default).liveIn := by
    by_contra hc
    push_neg at hc
    apply hne
    have hlenmap : (liveInsOf d1).length = (liveInsOf d2).length := by
      unfold liveInsOf
      rw [List.length_map, List.length_map]
      exact hle.1
    apply List.ext_getElem hlenmap
    intro i h1 h2
    unfold liveInsOf at h1 h2 ⊢
    rw [List.getElem_map, List.getElem_map]
    have hi : i < blocks.length := by rw [List.length_map] at h1; omega
    have := hc i hi
    rw [List.getD_eq_getElem _ _ (by rw [List.length_map] at h1; exact h1),
      List.getD_eq_getElem _ _ (by rw [List.length_map] at h2; exact h2)] at this
    exact this
  obtain ⟨i, hi, hne2⟩ := hdiff
  unfold liveMeasure
  refine Finset.sum_lt_sum
    (fun j _ => Finset.card_le_card (hle.2 j).1) ⟨i, Finset.mem_range.mpr hi, ?_⟩
  exact Finset.card_lt_card (HasSubset.Subset.ssubset_of_ne (hle.2 i).1 hne2)

theorem livenessLoop_reaches (blocks : List Block) (U : Finset Nat) :
    ∀ (fuel : Nat) (df : List DataFlowInfo),
      df.length = blocks.length →
      (∀ i, regsOf ((df.getD i default).uses) ⊆ U) →
      LiveInBounded U df →
      dfLE df (livenessPass blocks df) →
      blocks.length * U.card + 1 ≤ fuel + liveMeasure blocks df →
      ∃ s, livenessLoop blocks fuel df = livenessPass blocks s ∧
        liveInsOf (livenessPass blocks s) = liveInsOf s ∧
        s.length = blocks.length := by
  intro fuel
  induction fuel with
  | zero =>
    intro df hlen huses hb _hle hf
    exfalso
    have := liveMeasure_le blocks U df hb
    omega
  | succ fuel ih =>
    intro df hlen huses hb hle hf
    unfold livenessLoop
    dsimp only
    split
    · rename_i hst
      exact ⟨df, rfl, hst, hlen⟩
    · rename_i hst
      refine ih (livenessPass blocks df) ?_ ?_ ?_ ?_ ?_
      · rw [livenessPass_length]; exact hlen
      · intro i
        rw [(livenessPass_frames blocks df i).1]
        exact huses i
      · exact livenessPass_bounded blocks U df huses hb
      · exact livenessPass_mono blocks hle
      · have hlt : liveMeasure blocks df <
            liveMeasure blocks (livenessPass blocks df) :=
          liveMeasure_lt blocks hle hlen (fun h => hst h.symm)
        omega

theorem subset_foldl_union_regs (l : List DataFlowInfo) :
    ∀ (acc : Finset Nat),
      acc ⊆ l.foldl (fun s e => s ∪ regsOf e.uses) acc ∧
      ∀ e ∈ l, regsOf e.uses ⊆ l.foldl (fun s e => s ∪ regsOf e.uses) acc := by
  induction l with
  | nil => exact fun acc => ⟨fun x hx => hx, by simp⟩
  | cons a l ih =>
    intro acc
    rw [List.foldl_cons]
    refine ⟨(Finset.subset_union_left).trans (ih _).1, ?_⟩
    intro e he
    rcases List.mem_cons.mp he with rfl | he2
    · exact (Finset.subset_union_right).trans (ih _).1
    · exact (ih _).2 e he2

/-- C7: the liveness analysis of `_analyze_data_flow` reaches a state that
satisfies both data-flow equations — `live_out(b)` is the union of the
successors' `live_in` sets and `live_in(b) = uses(b) ∪ (live_out(b) −
defs(b))`, where `uses`/`defs` are the registers with non-empty
instruction-offset sets — and the computation is idempotent: one more pass
over the converged state changes nothing. -/
theorem liveness_fixpoint (blocks : List Block) :
    (∀ bid, bid < blocks.length →
      ((analyzeDataFlow blocks).getD bid default).liveOut =
        ((blocks.getD bid default).successors).biUnion
          (fun s => ((analyzeDataFlow blocks).getD s default).liveIn) ∧
      ((analyzeDataFlow blocks).getD bid default).liveIn =
        regsOf ((analyzeDataFlow blocks).getD bid default).uses ∪
          (((analyzeDataFlow blocks).getD bid default).liveOut \
            regsOf ((analyzeDataFlow blocks).getD bid default).definitions)) ∧
    livenessPass blocks (analyzeDataFlow blocks) = analyzeDataFlow blocks := by
  unfold analyzeDataFlow
  have hlen0 : (blocks.map blockDataFlow).length = blocks.length :=
    List.length_map _ _
  have hempty : ∀ i, ((blocks.map blockDataFlow).getD i default).liveIn = ∅ ∧
      ((blocks.map blockDataFlow).getD i default).liveOut = ∅ := by
    intro i
    by_cases hi : i < (blocks.map blockDataFlow).length
    · rw [List.getD_eq_getElem _ _ hi, List.getElem_map]
      exact ⟨rfl, rfl⟩
    · rw [List.getD_eq_default _ _ (by omega)]
      exact ⟨rfl, rfl⟩
  have huses0 : ∀ i, regsOf (((blocks.map blockDataFlow).getD i default).uses) ⊆
      usedRegUniverse (blocks.map blockDataFlow) := by
    intro i
    by_cases hi : i < (blocks.map blockDataFlow).length
    · rw [List.getD_eq_getElem _ _ hi]
      exact (subset_foldl_union_regs (blocks.map blockDataFlow) ∅).2 _
        (List.getElem_mem hi)
    · rw [List.getD_eq_default _ _ (by omega)]
      intro x hx
      simp [regsOf, default] at hx
  have hM0 : liveMeasure blocks (blocks.map blockDataFlow) = 0 := by
    unfold liveMeasure
    apply Finset.sum_eq_zero
    intro i _
    rw [(hempty i).1]
    exact Finset.card_empty
  obtain ⟨s, heq, hst, hslen⟩ := livenessLoop_reaches blocks
    (usedRegUniverse (blocks.map blockDataFlow))
    (livenessFuel blocks (blocks.map blockDataFlow)) (blocks.map blockDataFlow)
    hlen0 huses0
    (fun i => by rw [(hempty i).1]; exact Finset.empty_subset _)
    (⟨(livenessPass_length blocks _).symm, fun i => by
      rcases livenessPass_frames blocks (blocks.map blockDataFlow) i with ⟨hu, hd⟩
      exact ⟨by rw [(hempty i).1]; exact Finset.empty_subset _,
        by rw [(hempty i).2]; exact Finset.empty_subset _, hu.symm, hd.symm⟩⟩)
    (by rw [hM0]; unfold livenessFuel; omega)
  rw [heq]
  exact pass_fix_of_liveIns_stable blocks s hslen hst

/-- Witness for C7 on the CFG of `[ADD, RETURN]` (one block, no
successors). -/
theorem liveness_fixpoint_witness :
    0 < (buildCFG [mkInstr .ADD 0 1 2 0 0,
      mkInstr .RETURN 0 1 0 0 0]).length ∧
    ((analyzeDataFlow (buildCFG [mkInstr .ADD 0 1 2 0 0,
        mkInstr .RETURN 0 1 0 0 0])).getD 0 default).liveOut =
      (((buildCFG [mkInstr .ADD 0 1 2 0 0,
        mkInstr .RETURN 0 1 0 0 0]).getD 0 default).successors).biUnion
        (fun s => ((analyzeDataFlow (buildCFG [mkInstr .ADD 0 1 2 0 0,
          mkInstr .RETURN 0 1 0 0 0])).getD s default).liveIn) ∧
    livenessPass (buildCFG [mkInstr .ADD 0 1 2 0 0, mkInstr .RETURN 0 1 0 0 0])
        (analyzeDataFlow (buildCFG [mkInstr .ADD 0 1 2 0 0,
          mkInstr .RETURN 0 1 0 0 0])) =
      analyzeDataFlow (buildCFG [mkInstr .ADD 0 1 2 0 0,
        mkInstr .RETURN 0 1 0 0 0]) :=
  ⟨by decide,
   ((liveness_fixpoint (buildCFG [mkInstr .ADD 0 1 2 0 0,
     mkInstr .RETURN 0 1 0 0 0])).1 0 (by decide)).1,
   (liveness_fixpoint (buildCFG [mkInstr .ADD 0 1 2 0 0,
     mkInstr .RETURN 0 1 0 0 0])).2⟩

end ClaimC7

end Apex
